import Mathlib

/-!
# Verification of `calmh/upgrade`

A shallow embedding of the Go package `upgrade` (files `versions.go`,
`releases.go`, `upgrade.go`) together with theorems about it.

Conventions of the embedding.

* A Go `string` is a Lean `String`; the package only ever splits strings at the
  ASCII bytes `+`, `-`, `.`, tests the first byte against `v`/`V`, parses decimal
  digits and compares strings bytewise.  On well-formed UTF-8 all of these agree
  with the same operations on code points, which is what the embedding uses.
* A Go `int` is a Lean `Int`; the package performs no arithmetic on the parsed
  numbers, it only compares them, and `strconv.Atoi` clamps to the 64-bit range.
* The type `relation` is `int` in Go and `Int` here, with the five named
  constants of `versions.go`.
-/

namespace Upgrade

/-! ## Pieces of the Go standard library used by `versions.go` -/

/-- Largest value of a Go `int` on a 64-bit platform (`1<<63 - 1`). -/
def maxInt : Int := 9223372036854775807

/-- Smallest value of a Go `int` on a 64-bit platform (`-1<<63`). -/
def minInt : Int := -9223372036854775808

/-- Largest value of a Go `uint64` (`1<<64 - 1`). -/
def maxUint64 : Nat := 18446744073709551615

/-- The two errors of package `strconv`: `ErrSyntax` and `ErrRange`. -/
inductive NumError where
  | ErrSyn
  | ErrRange
  deriving DecidableEq, Repr

/-- The call `strings.SplitN(s, sep, 2)` for a one-byte separator: the text before
the first separator and, when there is a separator, the text after it. -/
def SplitN2 (sep : Char) : List Char → List (List Char)
  | [] => [[]]
  | c :: cs =>
    if c = sep then [[], cs]
    else
      match SplitN2 sep cs with
      | [] => [[c]]
      | p :: rest => (c :: p) :: rest

/-- The call `strings.Split(s, sep)` for a one-byte separator: all fields between
separators, so one field more than there are separators. -/
def Split (sep : Char) : List Char → List (List Char)
  | [] => [[]]
  | c :: cs =>
    if c = sep then [] :: Split sep cs
    else
      match Split sep cs with
      | [] => [[c]]
      | p :: rest => (c :: p) :: rest

/-- The digit loop of `strconv.ParseUint(s, 10, 64)`, with `n` the value read so
far.  A byte that is not a decimal digit is a syntax error; an overflow of
`uint64` is a range error, reported at once, before the rest is looked at. -/
def parseUintLoop : List Char → Nat → Except NumError Nat
  | [], n => .ok n
  | c :: cs, n =>
    if 48 ≤ c.toNat ∧ c.toNat ≤ 57 then
      if n ≥ maxUint64 / 10 + 1 then .error .ErrRange
      else
        let n1 := n * 10 + (c.toNat - 48)
        if n1 > maxUint64 then .error .ErrRange
        else parseUintLoop cs n1
    else .error .ErrSyn

/-- The function `strconv.ParseUint(s, 10, 64)`: the empty string is a syntax
error; on a range error the value is `maxUint64`, on a syntax error `0`. -/
def ParseUint (s : List Char) : Nat × Option NumError :=
  match s with
  | [] => (0, some .ErrSyn)
  | _ =>
    match parseUintLoop s 0 with
    | .ok n => (n, none)
    | .error .ErrRange => (maxUint64, some .ErrRange)
    | .error .ErrSyn => (0, some .ErrSyn)

/-- The function `strconv.ParseInt(s, 10, 0)` on a 64-bit platform: an optional
sign, then `ParseUint`; a value out of range is clamped and reported as
`ErrRange`. -/
def ParseInt (s : List Char) : Int × Option NumError :=
  match s with
  | [] => (0, some .ErrSyn)
  | c :: cs =>
    let neg := decide (c = '-')
    let body := if c = '+' ∨ c = '-' then cs else c :: cs
    match ParseUint body with
    | (_, some .ErrSyn) => (0, some .ErrSyn)
    | (un, _) =>
      if ¬ neg ∧ un ≥ 9223372036854775808 then (maxInt, some .ErrRange)
      else if neg ∧ un > 9223372036854775808 then (minInt, some .ErrRange)
      else if neg then (-(un : Int), none)
      else ((un : Int), none)

/-- The function `strconv.Atoi`: its fast path for short strings computes the same
value and error as `ParseInt(s, 10, 0)`, to which the slow path defers. -/
def Atoi (s : List Char) : Int × Option NumError := ParseInt s

/-- Go's `<` on strings: bytewise lexicographic order, a proper prefix being
smaller. -/
def strLess : List Char → List Char → Bool
  | _, [] => false
  | [], _ :: _ => true
  | x :: xs, y :: ys =>
    if x.toNat < y.toNat then true
    else if y.toNat < x.toNat then false
    else strLess xs ys

/-! ## `versions.go` -/

/-- The Go type `relation` (an `int`). -/
abbrev relation := Int

/-- Older by a major version (x in x.y.z or 0.x.y). -/
abbrev majorOlder : relation := -2
/-- Older by a minor version (y or z in x.y.z, or y in 0.x.y). -/
abbrev older : relation := -1
/-- Versions are semantically equal. -/
abbrev equal : relation := 0
/-- Newer by a minor version (y or z in x.y.z, or y in 0.x.y). -/
abbrev newer : relation := 1
/-- Newer by a major version (x in x.y.z or 0.x.y). -/
abbrev majorNewer : relation := 2

/-- An element of the `[]interface{}` returned by `versionParts`: an `int` or a
`string`. -/
inductive PreId where
  | int (n : Int)
  | str (s : List Char)
  deriving DecidableEq, Repr

/-- The function `versionParts`: strip one leading `v` or `V`, cut the build
metadata at the first `+`, cut the prerelease tag at the first `-`, split both
halves at `.`; release fields go through `Atoi` with the error dropped,
prerelease fields are an `int` when `Atoi` succeeds and the string otherwise.
The prerelease slice is `nil` (here `[]`) when there is no `-`. -/
def versionParts (v : String) : List Int × List PreId :=
  let v := match v.data with
    | [] => []
    | c :: cs => if c = 'v' ∨ c = 'V' then cs else c :: cs
  let parts := SplitN2 '+' v
  let parts := SplitN2 '-' (parts.headD [])
  let fields := Split '.' (parts.headD [])
  let release := fields.map (fun s => (Atoi s).1)
  let prerelease :=
    if parts.length > 1 then
      (Split '.' (parts.getD 1 [])).map (fun s =>
        match Atoi s with
        | (n, none) => PreId.int n
        | (_, some _) => PreId.str s)
    else []
  (release, prerelease)

/-- The first loop of `compareVersions`, entered at index `i` with the release
components from `i` on; `a0` is `arel[0]`.  The result is `none` when the loop
runs to `minlen` without returning. -/
def releaseLoop (a0 : Int) : Nat → List Int → List Int → Option relation
  | i, x :: xs, y :: ys =>
    if x < y then
      if i = 0 then some majorOlder
      else if i = 1 ∧ a0 = 0 then some majorOlder
      else some older
    else if x > y then
      if i = 0 then some majorNewer
      else if i = 1 ∧ a0 = 0 then some majorNewer
      else some newer
    else releaseLoop a0 (i + 1) xs ys
  | _, _, _ => none

/-- The second loop of `compareVersions`, over the prerelease identifiers; `none`
when it runs to `minlen` without returning. -/
def prereleaseLoop : List PreId → List PreId → Option relation
  | PreId.int av :: xs, PreId.int bv :: ys =>
    if av < bv then some older
    else if av > bv then some newer
    else prereleaseLoop xs ys
  | PreId.int _ :: _, PreId.str _ :: _ => some older
  | PreId.str _ :: _, PreId.int _ :: _ => some newer
  | PreId.str av :: xs, PreId.str bv :: ys =>
    if strLess av bv then some older
    else if strLess bv av then some newer
    else prereleaseLoop xs ys
  | _, _ => none

/-- The body of `compareVersions` after the two calls of `versionParts`. -/
def compareParts (arel : List Int) (apre : List PreId) (brel : List Int)
    (bpre : List PreId) : relation :=
  match releaseLoop (arel.headD 0) 0 arel brel with
  | some r => r
  | none =>
    if arel.length < brel.length then older
    else if arel.length > brel.length then newer
    else if apre.length = 0 ∧ bpre.length > 0 then newer
    else if apre.length > 0 ∧ bpre.length = 0 then older
    else
      match prereleaseLoop apre bpre with
      | some r => r
      | none =>
        if apre.length < bpre.length then older
        else if apre.length > bpre.length then newer
        else equal

/-- The function `compareVersions`: a relation describing how `a` compares to
`b`. -/
def compareVersions (a b : String) : relation :=
  compareParts (versionParts a).1 (versionParts a).2 (versionParts b).1 (versionParts b).2

/-- The table `versions` of `versions_test.go`. -/
def versions : List (String × String × relation) :=
  [ ("0.1.2", "0.1.2", equal),
    ("0.1.3", "0.1.2", newer),
    ("0.1.1", "0.1.2", older),
    ("0.3.0", "0.1.2", majorNewer),
    ("0.0.9", "0.1.2", majorOlder),
    ("1.3.0", "1.1.2", newer),
    ("1.0.9", "1.1.2", older),
    ("2.3.0", "1.1.2", majorNewer),
    ("1.0.9", "2.1.2", majorOlder),
    ("1.1.2", "0.1.2", majorNewer),
    ("0.1.2", "1.1.2", majorOlder),
    ("0.1.10", "0.1.9", newer),
    ("0.10.0", "0.2.0", majorNewer),
    ("30.10.0", "4.9.0", majorNewer),
    ("0.9.0-beta7", "0.9.0-beta6", newer),
    ("0.9.0-beta7", "1.0.0-alpha", majorOlder),
    ("1.0.0-alpha", "1.0.0-alpha.1", older),
    ("1.0.0-alpha.1", "1.0.0-alpha.beta", older),
    ("1.0.0-alpha.beta", "1.0.0-beta", older),
    ("1.0.0-beta", "1.0.0-beta.2", older),
    ("1.0.0-beta.2", "1.0.0-beta.11", older),
    ("1.0.0-beta.11", "1.0.0-rc.1", older),
    ("1.0.0-rc.1", "1.0.0", older),
    ("1.0.0+45", "1.0.0+23-dev-foo", equal),
    ("1.0.0-beta.23+45", "1.0.0-beta.23+23-dev-foo", equal),
    ("1.0.0-beta.3+99", "1.0.0-beta.24+0", older),
    ("v1.1.2", "1.1.2", equal),
    ("v1.1.2", "V1.1.2", equal),
    ("1.1.2", "V1.1.2", equal) ]

/-- The seven rows of the table in the specification. -/
def specTable : List (String × String × relation) :=
  [ ("0.1.2", "0.1.2", equal),
    ("0.1.3", "0.1.2", newer),
    ("0.3.0", "0.1.2", majorNewer),
    ("1.0.0-alpha", "1.0.0-alpha.1", older),
    ("1.0.0-beta.2", "1.0.0-beta.11", older),
    ("1.0.0-rc.1", "1.0.0", older),
    ("1.0.0+45", "1.0.0+23-dev-foo", equal) ]


/-! ## `releases.go` -/

/-- The maximum number of matching releases returned by a release lister. -/
def maxReleases : Nat := 5

/-- An Asset is an archive file for a given OS and architecture. -/
structure Asset where
  Name : String
  URL : String
  deriving DecidableEq, Repr

/-- A Release represents a given software release. -/
structure Release where
  Version : String
  Assets : List Asset
  deriving DecidableEq, Repr

/-- The temporary type `ghRel` of `GithubReleases`, one decoded catalog entry. -/
structure ghRel where
  Tag : String
  Prerelease : Bool
  Assets : List Asset
  deriving DecidableEq, Repr

/-- What `insecureHTTP.Get` hands back when the transport succeeds: the status
code and status line, and the outcome of `json.NewDecoder(resp.Body).Decode`
on the body (the decoded catalog, or the decoder's error). -/
structure Response where
  StatusCode : Int
  Status : String
  Body : Except String (List ghRel)

/-- The method `sortByRelease.Less`, on the two elements it is asked about. -/
def sortByRelease.Less (x y : Release) : Bool :=
  decide (compareVersions x.Version y.Version > 0)

/-- The documented contract of `sort.Sort` for the interface `sortByRelease`: the
slice is permuted so that no element is `Less` than one before it.  The sort
is not stable, so the order among ties is left open. -/
def SortContract (sortFn : List Release → List Release) : Prop :=
  ∀ l, (sortFn l).Perm l ∧ (sortFn l).Pairwise (fun x y => sortByRelease.Less y x = false)

/-- One sorting function that meets `SortContract`: insertion sort. -/
def insertionSortByRelease (l : List Release) : List Release :=
  l.insertionSort (fun x y => sortByRelease.Less y x = false)

/-- The filter loop of `GithubReleases` (`for _, r := range ghRels`), with `rels`
the slice built so far. -/
def filterLoop (currentVersion : String) (allowMajorUpgrade allowPrerelease : Bool) :
    List ghRel → List Release → List Release
  | [], rels => rels
  | r :: rest, rels =>
    if r.Prerelease ∧ ¬ allowPrerelease then
      filterLoop currentVersion allowMajorUpgrade allowPrerelease rest rels
    else
      let comp := compareVersions r.Tag currentVersion
      if comp ≤ 0 then
        filterLoop currentVersion allowMajorUpgrade allowPrerelease rest rels
      else if comp = majorNewer ∧ ¬ allowMajorUpgrade then
        filterLoop currentVersion allowMajorUpgrade allowPrerelease rest rels
      else
        filterLoop currentVersion allowMajorUpgrade allowPrerelease rest
          (rels ++ [{ Version := r.Tag, Assets := r.Assets }])

/-- The function `GithubReleases`.  `sortFn` stands for `sort.Sort` and `httpGet`
for `insecureHTTP.Get`; the result is the pair `([]Release, error)`, the error
being `none` for `nil`. -/
def GithubReleases (sortFn : List Release → List Release)
    (httpGet : String → Except String Response)
    (project : String) (currentVersion : String)
    (allowMajorUpgrade : Bool) (allowPrerelease : Bool) : List Release × Option String :=
  match httpGet ("https://api.github.com/repos/" ++ project ++ "/releases?per_page=30") with
  | .error err => ([], some err)
  | .ok resp =>
    if resp.StatusCode > 299 then
      ([], some ("API call returned HTTP error: " ++ resp.Status))
    else
      match resp.Body with
      | .error err => ([], some err)
      | .ok ghRels =>
        let rels := filterLoop currentVersion allowMajorUpgrade allowPrerelease ghRels []
        let rels := sortFn rels
        let rels := if rels.length > maxReleases then rels.take maxReleases else rels
        (rels, none)

/-- The function `MatchingAssets`; `exp` stands for `exp.MatchString`. -/
def MatchingAssets (exp : String → Bool) (rel : Release) : List Asset :=
  rel.Assets.foldl (fun matched asset => if exp asset.Name then matched ++ [asset] else matched) []

/-- A catalog entry passes the three tests of the filter loop: it is not a
prerelease unless prereleases are allowed, it is newer than `currentVersion`,
and it is not a major step unless major upgrades are allowed. -/
def eligible (currentVersion : String) (allowMajorUpgrade allowPrerelease : Bool)
    (r : ghRel) : Bool :=
  decide ((compareVersions r.Tag currentVersion = newer ∨
      compareVersions r.Tag currentVersion = majorNewer) ∧
    (compareVersions r.Tag currentVersion = majorNewer → allowMajorUpgrade = true) ∧
    (r.Prerelease = true → allowPrerelease = true))

/-- The release that the filter loop appends for a catalog entry. -/
def toRelease (r : ghRel) : Release := { Version := r.Tag, Assets := r.Assets }

/-- A transport that answers every request with status 200 and the given decoded
catalog. -/
def serve (catalog : List ghRel) : String → Except String Response :=
  fun _ => .ok { StatusCode := 200, Status := "200 OK", Body := .ok catalog }

/-- The release index answers the request for `project` with a status that
`GithubReleases` accepts and a body that decodes to `catalog`. -/
def Delivers (httpGet : String → Except String Response) (project : String)
    (catalog : List ghRel) : Prop :=
  ∃ resp, httpGet ("https://api.github.com/repos/" ++ project ++ "/releases?per_page=30")
      = .ok resp ∧ resp.StatusCode ≤ 299 ∧ resp.Body = .ok catalog

/-- The catalog of the example in the specification: `2.0.0`, the prerelease
`1.5.0-beta`, and `1.4.0`. -/
def specCatalog : List ghRel :=
  [{ Tag := "2.0.0", Prerelease := false, Assets := [] },
   { Tag := "1.5.0-beta", Prerelease := true, Assets := [] },
   { Tag := "1.4.0", Prerelease := false,
     Assets := [{ Name := "app-linux-amd64.tar.gz", URL := "https://h/a" }] }]

/-- A catalog with two tags for the same version. -/
def tieCatalog : List ghRel :=
  [{ Tag := "1.4.0", Prerelease := false, Assets := [] },
   { Tag := "v1.4.0", Prerelease := false, Assets := [] }]

/-- A catalog with six entries newer than `1.3.0` and one older. -/
def longCatalog : List ghRel :=
  [{ Tag := "1.4.0", Prerelease := false, Assets := [] },
   { Tag := "1.4.1", Prerelease := false, Assets := [] },
   { Tag := "1.4.2", Prerelease := false, Assets := [] },
   { Tag := "1.4.3", Prerelease := false, Assets := [] },
   { Tag := "1.4.4", Prerelease := false, Assets := [] },
   { Tag := "1.4.5", Prerelease := false, Assets := [] },
   { Tag := "1.2.0", Prerelease := false, Assets := [] }]


/-! ## `upgrade.go`

The file system and the archive are the environment of the package.  A state
`Sys` holds the files, a script saying which of the system calls still to come
fail, the names `ioutil.TempFile` will try, and the log of the calls that
changed the file system. -/

/-- A byte slice. -/
abbrev Bytes := List UInt8

/-- A file: its contents and its permission bits. -/
structure File where
  data : Bytes
  mode : Nat
  deriving DecidableEq, Repr

/-- A system call that changed the file system. -/
inductive Event where
  | create (name : String)
  | write (name : String)
  | chmod (name : String)
  | remove (name : String)
  | rename (oldpath newpath : String)
  deriving DecidableEq, Repr

/-- The state of the environment.  `faults` is consumed one flag per system call,
`true` making that call fail; when it is used up, calls fail only for a reason
visible in the file system.  `names` are the paths `ioutil.TempFile` tries, in
order. -/
structure Sys where
  fs : String → Option File
  faults : List Bool
  names : List String
  log : List Event

/-- An `io.Reader`: the bytes it delivers, and whether it then reports an error
instead of `io.EOF`. -/
structure Reader where
  data : Bytes
  err : Bool
  deriving DecidableEq, Repr

/-- One entry of an archive: its name, whether opening it fails (`file.Open` of
package `zip`), and its contents as a reader. -/
structure Entry where
  Name : String
  openErr : Bool
  body : Reader
  deriving DecidableEq, Repr

/-- A response body seen as an archive: whether reading the whole body fails
(`ioutil.ReadAll` in `readZip`), whether the container is rejected
(`gzip.NewReader`, `zip.NewReader`), the entries, and whether `tr.Next` reports
an error instead of `io.EOF` after the last of them. -/
structure Archive where
  bodyErr : Bool
  headerErr : Bool
  entries : List Entry
  tailErr : Bool
  deriving DecidableEq, Repr

/-- The capabilities the package is given: the platform, the path of the running
executable (`osext.Executable`), `filepath.Dir`, the fetch of a URL
(`http.NewRequest` and `insecureHTTP.Do`), and `signature.Verify`, which is
`true` when it returns `nil`. -/
structure Env where
  GOOS : String
  Executable : Except String String
  Dir : String → String
  httpDo : String → Except String Archive
  Verify : Bytes → Bytes → Bytes → Bool

/-- Take the next flag of the fault script. -/
def nextFault (s : Sys) : Bool × Sys :=
  match s.faults with
  | [] => (false, s)
  | f :: rest => (f, { s with faults := rest })

/-- The call `os.Remove(name)`: fails on a fault, on the empty path and on a
missing file, and otherwise deletes the file. -/
def osRemove (name : String) (s : Sys) : Option String × Sys :=
  let (f, s) := nextFault s
  if f ∨ name = "" ∨ (s.fs name).isNone then (some "remove failed", s)
  else
    (none, { s with fs := fun p => if p = name then none else s.fs p,
                    log := s.log ++ [Event.remove name] })

/-- The call `os.Rename(oldpath, newpath)`: fails on a fault, on an empty path
and on a missing source, and otherwise moves the file, replacing the target. -/
def osRename (oldpath newpath : String) (s : Sys) : Option String × Sys :=
  let (f, s) := nextFault s
  if f ∨ oldpath = "" ∨ newpath = "" ∨ (s.fs oldpath).isNone then (some "rename failed", s)
  else
    (none, { s with fs := fun p => if p = newpath then s.fs oldpath
                                   else if p = oldpath then none else s.fs p,
                    log := s.log ++ [Event.rename oldpath newpath] })

/-- The name search of `ioutil.TempFile`: the first candidate that does not exist
yet (the file is opened with `O_EXCL`). -/
def pickName (fs : String → Option File) : List String → Option (String × List String)
  | [] => none
  | n :: rest => if (fs n).isNone then some (n, rest) else pickName fs rest

/-- The call `ioutil.TempFile(dir, pattern)`: fails on a fault or when every
candidate name exists, and otherwise creates an empty file with mode 0600 and
returns its name.  The candidates `dir/pattern<random>` are those of
`s.names`. -/
def ioutilTempFile (_dir _pattern : String) (s : Sys) : Except String String × Sys :=
  let (f, s) := nextFault s
  if f then (.error "create failed", s)
  else
    match pickName s.fs s.names with
    | none => (.error "file exists", { s with names := [] })
    | some (n, rest) =>
      (.ok n, { s with fs := fun p => if p = n then some { data := [], mode := 0o600 } else s.fs p,
                       names := rest,
                       log := s.log ++ [Event.create n] })

/-- The call `io.Copy(outFile, inFile)` for the open file `name`: a fault is a
write error that leaves the file as it is; otherwise the bytes delivered by the
reader are written, and the reader's own error is returned. -/
def ioCopy (name : String) (inFile : Reader) (s : Sys) : Option String × Sys :=
  let (f, s) := nextFault s
  if f then (some "write failed", s)
  else
    let s := { s with fs := fun p => if p = name then
                                       (s.fs name).map (fun fl => { fl with data := inFile.data })
                                     else s.fs p,
                      log := s.log ++ [Event.write name] }
    if inFile.err then (some "read failed", s) else (none, s)

/-- The call `outFile.Close()`. -/
def fileClose (_name : String) (s : Sys) : Option String × Sys :=
  let (f, s) := nextFault s
  if f then (some "close failed", s) else (none, s)

/-- The call `os.Chmod(name, mode)`. -/
def osChmod (name : String) (mode : Nat) (s : Sys) : Option String × Sys :=
  let (f, s) := nextFault s
  if f ∨ name = "" ∨ (s.fs name).isNone then (some "chmod failed", s)
  else
    (none, { s with fs := fun p => if p = name then
                                     (s.fs name).map (fun fl => { fl with mode := mode })
                                   else s.fs p,
                    log := s.log ++ [Event.chmod name] })

/-- The call `os.Open(name)`, returning the contents the descriptor reads. -/
def osOpen (name : String) (s : Sys) : Except String Bytes × Sys :=
  let (f, s) := nextFault s
  if f ∨ name = "" then (.error "open failed", s)
  else
    match s.fs name with
    | none => (.error "open failed", s)
    | some fl => (.ok fl.data, s)

/-- The call `ioutil.ReadAll(r)`: the bytes read, and the reader's error. -/
def ioutilReadAll (r : Reader) : Bytes × Option String :=
  (r.data, if r.err then some "read failed" else none)

/-- Drop the trailing slashes of a path given in reverse. -/
def dropSlashes : List Char → List Char
  | [] => []
  | c :: cs => if c = '/' then dropSlashes cs else c :: cs

/-- The text before the first slash. -/
def untilSlash : List Char → List Char
  | [] => []
  | c :: cs => if c = '/' then [] else c :: untilSlash cs

/-- The function `path.Base`: the last element of a path, trailing slashes
removed; `.` for the empty path and `/` for a path of slashes only. -/
def Base (path : String) : String :=
  if path = "" then "."
  else
    let last := (untilSlash (dropSlashes path.data.reverse)).reverse
    if last = [] then "/" else String.mk last

/-- The function `writeBinary`: write the payload to a temporary file in `dir`
and make it executable; on any error after the file was created the file is
removed and the empty name is returned. -/
def writeBinary (dir : String) (inFile : Reader) (s : Sys) : (String × Option String) × Sys :=
  match ioutilTempFile dir "syncthing" s with
  | (.error err, s) => (("", some err), s)
  | (.ok name, s) =>
    match ioCopy name inFile s with
    | (some err, s) => (("", some err), (osRemove name s).2)
    | (none, s) =>
      match fileClose name s with
      | (some err, s) => (("", some err), (osRemove name s).2)
      | (none, s) =>
        match osChmod name 0o755 s with
        | (some err, s) => (("", some err), (osRemove name s).2)
        | (none, s) => ((name, none), s)

/-- The function `archiveFileVisitor`, called for each file in an archive.  The
two pointers `tempFile` and `signature` are passed in and handed back; the
signature is `none` for a `nil` slice. -/
def archiveFileVisitor (dir : String) (tempFile : String) (signature : Option Bytes)
    (filename : String) (filedata : Reader) (s : Sys) :
    (String × Option Bytes × Option String) × Sys :=
  if filename = "syncthing" ∨ filename = "syncthing.exe" then
    match writeBinary dir filedata s with
    | ((name, some err), s) => ((name, signature, some err), s)
    | ((name, none), s) => ((name, signature, none), s)
  else if filename = "syncthing.sig" ∨ filename = "syncthing.exe.sig" then
    match ioutilReadAll filedata with
    | (data, some err) => ((tempFile, some data, some err), s)
    | (data, none) => ((tempFile, some data, none), s)
  else ((tempFile, signature, none), s)

/-- The loop of `readTarGz` over the entries that `tr.Next` delivers. -/
def tarLoop (dir : String) (tailErr : Bool) :
    List Entry → String → Option Bytes → Sys → (String × Option Bytes × Option String) × Sys
  | [], tempName, sig, s =>
    if tailErr then (("", none, some "unexpected EOF"), s) else ((tempName, sig, none), s)
  | hdr :: rest, tempName, sig, s =>
    let shortName := Base hdr.Name
    match archiveFileVisitor dir tempName sig shortName hdr.body s with
    | ((_, _, some err), s) => (("", none, some err), s)
    | ((tempName, sig, none), s) =>
      if tempName ≠ "" ∧ sig ≠ none then ((tempName, sig, none), s)
      else tarLoop dir tailErr rest tempName sig s

/-- The function `readTarGz`. -/
def readTarGz (dir : String) (r : Archive) (s : Sys) :
    (String × Option Bytes × Option String) × Sys :=
  if r.headerErr then (("", none, some "gzip: invalid header"), s)
  else tarLoop dir r.tailErr r.entries "" none s

/-- The loop of `readZip` over `archive.File`. -/
def zipLoop (dir : String) :
    List Entry → String → Option Bytes → Sys → (String × Option Bytes × Option String) × Sys
  | [], tempName, sig, s => ((tempName, sig, none), s)
  | file :: rest, tempName, sig, s =>
    let shortName := Base file.Name
    if file.openErr then (("", none, some "open failed"), s)
    else
      match archiveFileVisitor dir tempName sig shortName file.body s with
      | ((_, _, some err), s) => (("", none, some err), s)
      | ((tempName, sig, none), s) =>
        if tempName ≠ "" ∧ sig ≠ none then ((tempName, sig, none), s)
        else zipLoop dir rest tempName sig s

/-- The function `readZip`. -/
def readZip (dir : String) (r : Archive) (s : Sys) :
    (String × Option Bytes × Option String) × Sys :=
  if r.bodyErr then (("", none, some "read failed"), s)
  else if r.headerErr then (("", none, some "zip: not a valid zip file"), s)
  else zipLoop dir r.entries "" none s

/-- The function `readRelease`. -/
def readRelease (env : Env) (dir url : String) (s : Sys) :
    (String × Option Bytes × Option String) × Sys :=
  match env.httpDo url with
  | .error err => (("", none, some err), s)
  | .ok body =>
    if env.GOOS = "windows" then readZip dir body s
    else readTarGz dir body s

/-- The function `verifyUpgrade`; the result is `none` for a `nil` error. -/
def verifyUpgrade (env : Env) (tempName : String) (sig : Option Bytes) (key : Bytes)
    (s : Sys) : Option String × Sys :=
  if tempName = "" then (some "no upgrade found", s)
  else
    match sig with
    | none => (some "no signature found", s)
    | some sigBytes =>
      match osOpen tempName s with
      | (.error err, s) => (some err, s)
      | (.ok fd, s) =>
        if env.Verify key sigBytes fd then (none, s)
        else (some "verification failed", (osRemove tempName s).2)

/-- The function `upgradeToURL`: upgrade to the given release, saving the previous
binary with a ".old" extension. -/
def upgradeToURL (env : Env) (binary url : String) (key : Bytes) (s : Sys) :
    Option String × Sys :=
  match readRelease env (env.Dir binary) url s with
  | ((_, _, some err), s) => (some err, s)
  | ((fname, sig, none), s) =>
    match verifyUpgrade env fname sig key s with
    | (some err, s) => (some err, (osRemove fname s).2)
    | (none, s) =>
      let old := binary ++ ".old"
      let s := (osRemove old s).2
      match osRename binary old s with
      | (some err, s) => (some err, s)
      | (none, s) =>
        match osRename fname binary s with
        | (some err, s) => (some err, s)
        | (none, s) => (none, s)

/-- The function `ToURL`. -/
def ToURL (env : Env) (url : String) (key : Bytes) (s : Sys) : Option String × Sys :=
  match env.Executable with
  | .error err => (some err, s)
  | .ok path => upgradeToURL env path url key s

/-- The renames recorded in a log. -/
def renames (log : List Event) : List Event :=
  log.filter (fun e => match e with | Event.rename _ _ => true | _ => false)

/-- A path that `ioutil.TempFile` cannot pick: a file exists there, or it is not
among the names still to be tried. -/
def Shielded (p : String) (s : Sys) : Prop :=
  (s.fs p).isSome ∨ p ∉ s.names

/-- The step from `s` to `t` leaves the path `p` alone: the file at `p` is the
same, no rename was performed, and `p` stays out of reach of
`ioutil.TempFile`. -/
def Frame (p : String) (s t : Sys) : Prop :=
  t.fs p = s.fs p ∧ renames t.log = renames s.log ∧ (Shielded p s → Shielded p t)

/-- The call of `signature.Verify` on the extracted payload succeeds: there is a
temp file `fname`, there is a signature, and `Verify` accepts the signature
for the bytes of the temp file. -/
def VerifySucceeds (env : Env) (key : Bytes) (fname : String) (sig : Option Bytes)
    (s : Sys) : Prop :=
  fname ≠ "" ∧ ∃ sigBytes fl, sig = some sigBytes ∧ s.fs fname = some fl ∧
    env.Verify key sigBytes fl.data = true

/-- A sample archive: the payload and its signature below a directory. -/
def sampleArchive : Archive :=
  { bodyErr := false, headerErr := false,
    entries := [{ Name := "syncthing-linux/syncthing", openErr := false,
                  body := { data := [7, 8], err := false } },
                { Name := "syncthing-linux/syncthing.sig", openErr := false,
                  body := { data := [9], err := false } }],
    tailErr := false }

/-- A sample environment on Linux whose `Verify` answers `accept`. -/
def sampleEnv (accept : Bool) : Env :=
  { GOOS := "linux", Executable := .ok "/bin/syncthing", Dir := fun _ => "/bin",
    httpDo := fun _ => .ok sampleArchive, Verify := fun _ _ _ => accept }

/-- A sample state: the running binary is the only file, no call fails, and
`ioutil.TempFile` will try one name. -/
def sampleSys : Sys :=
  { fs := fun p => if p = "/bin/syncthing" then some { data := [1], mode := 0o755 } else none,
    faults := [], names := ["/bin/syncthing042"], log := [] }

/-! ## Orders used to describe `compareVersions` -/

/-- Three-way lexicographic comparison of two lists by a strict order `lt` on the
elements: `-1`, `0` or `1`, a proper prefix being smaller. -/
def lexSign {α : Type} (lt : α → α → Bool) : List α → List α → Int
  | [], [] => 0
  | [], _ :: _ => -1
  | _ :: _, [] => 1
  | x :: xs, y :: ys =>
    if lt x y then -1
    else if lt y x then 1
    else lexSign lt xs ys

/-- The order of prerelease identifiers used by the second loop: integers
numerically, strings bytewise, an integer before a string. -/
def preLess : PreId → PreId → Bool
  | PreId.int a, PreId.int b => decide (a < b)
  | PreId.int _, PreId.str _ => true
  | PreId.str _, PreId.int _ => false
  | PreId.str a, PreId.str b => strLess a b

/-- The comparison of two lists of prerelease identifiers after a tie of the
release components: the empty list (no prerelease tag) is above every other
list, and two lists with identifiers compare lexicographically. -/
def preSign (apre bpre : List PreId) : Int :=
  if apre = [] ∧ bpre ≠ [] then 1
  else if apre ≠ [] ∧ bpre = [] then -1
  else lexSign preLess apre bpre

/-- The sign of `compareParts`, written with `lexSign`: the release components
decide lexicographically, and on a tie `preSign` decides. -/
def partsSign (a b : List Int × List PreId) : Int :=
  if lexSign (fun x y : Int => decide (x < y)) a.1 b.1 ≠ 0 then
    lexSign (fun x y : Int => decide (x < y)) a.1 b.1
  else preSign a.2 b.2

/-- A three-way comparison with values `-1`, `0`, `1` that is antisymmetric,
transitive on its strict side and `0` only on identical arguments. -/
structure SignOrder {α : Type} (c : α → α → Int) : Prop where
  range : ∀ a b, c a b = -1 ∨ c a b = 0 ∨ c a b = 1
  swap : ∀ a b, c b a = - c a b
  eq_of_zero : ∀ a b, c a b = 0 → a = b
  trans : ∀ a b d, c a b = 1 → c b d = 1 → c a d = 1

/-! ## Notions used to state the later claims -/

/-- A transport that answers every request with the given status code and status
line and a body that decodes to the given catalog. -/
def serveStatus (code : Int) (status : String) (catalog : List ghRel) :
    String → Except String Response :=
  fun _ => .ok { StatusCode := code, Status := status, Body := .ok catalog }

/-- The text of a version that `versionParts` reads the release components from:
what follows the stripped `v`, up to the first `+` or `-`. -/
def releasePart (v : String) : List Char :=
  (match v.data with
    | [] => []
    | c :: cs => if c = 'v' ∨ c = 'V' then cs else c :: cs).takeWhile
    (fun c => decide (c ≠ '+') && decide (c ≠ '-'))

/-- A byte is a decimal digit. -/
def isDigit (c : Char) : Bool := decide (48 ≤ c.toNat ∧ c.toNat ≤ 57)

/-- A field is a decimal number: not empty, and decimal digits only. -/
def isDecimal (f : List Char) : Bool := decide (f ≠ []) && f.all isDigit

/-- The number written by the decimal digits a field begins with, continuing the
value `n`. -/
def leadingValue : List Char → Nat → Nat
  | [], n => n
  | c :: cs, n => if isDigit c then leadingValue cs (n * 10 + (c.toNat - 48)) else n

/-- The release component a field without sign stands for: `maxInt` when the
digits it begins with overflow 64 bits, the number it writes (capped at
`maxInt`) when it is a decimal number, and `0` otherwise. -/
def fieldValue (f : List Char) : Int :=
  if leadingValue f 0 > maxUint64 then maxInt
  else if isDecimal f then
    (if leadingValue f 0 ≥ 9223372036854775808 then maxInt else (leadingValue f 0 : Int))
  else 0

/-- The base name of the payload, as `archiveFileVisitor` tests it. -/
def payloadName (filename : String) : Bool :=
  decide (filename = "syncthing" ∨ filename = "syncthing.exe")

/-- The base name of the detached signature, as `archiveFileVisitor` tests it. -/
def sigName (filename : String) : Bool :=
  decide (filename = "syncthing.sig" ∨ filename = "syncthing.exe.sig")

/-- A well-formed archive: the body reads, the container is accepted, the list of
entries ends with `io.EOF`, and every entry opens and reads to its end. -/
def WellFormed (a : Archive) : Prop :=
  a.bodyErr = false ∧ a.headerErr = false ∧ a.tailErr = false ∧
    ∀ e ∈ a.entries, e.openErr = false ∧ e.body.err = false

/-- The environment lets `k` temp files be written: no system call is scripted
to fail, and `ioutil.TempFile` has at least `k` candidate names, all distinct,
non-empty and not yet in use. -/
def Ready (s : Sys) (k : Nat) : Prop :=
  (∀ f ∈ s.faults, f = false) ∧ s.names.Nodup ∧
    (∀ n ∈ s.names, n ≠ "" ∧ s.fs n = none) ∧ k ≤ s.names.length

/-- The stage Extract of `upgradeToURL`: the call of `readRelease`. -/
def stageExtract (env : Env) (binary url : String) (s : Sys) :
    (String × Option Bytes × Option String) × Sys :=
  readRelease env (env.Dir binary) url s

/-- The stage Verify of `upgradeToURL`: the call of `verifyUpgrade` on what was
extracted. -/
def stageVerify (env : Env) (binary url : String) (key : Bytes) (s : Sys) :
    Option String × Sys :=
  verifyUpgrade env (stageExtract env binary url s).1.1 (stageExtract env binary url s).1.2.1
    key (stageExtract env binary url s).2

/-- The first rename of the stage Apply, after the removal of a stale `.old`
file. -/
def stageRenameOld (env : Env) (binary url : String) (key : Bytes) (s : Sys) :
    Option String × Sys :=
  osRename binary (binary ++ ".old")
    (osRemove (binary ++ ".old") (stageVerify env binary url key s).2).2

/-- The second rename of the stage Apply. -/
def stageRenameNew (env : Env) (binary url : String) (key : Bytes) (s : Sys) :
    Option String × Sys :=
  osRename (stageExtract env binary url s).1.1 binary (stageRenameOld env binary url key s).2

/-- Extraction, verification and both renames succeed. -/
def StagesSucceed (env : Env) (binary url : String) (key : Bytes) (s : Sys) : Prop :=
  (stageExtract env binary url s).1.2.2 = none ∧
  (stageVerify env binary url key s).1 = none ∧
  (stageRenameOld env binary url key s).1 = none ∧
  (stageRenameNew env binary url key s).1 = none

/-- A tar stream that breaks off after the payload: `tr.Next` reports an error
where the signature should follow. -/
def truncatedArchive : Archive :=
  { bodyErr := false, headerErr := false,
    entries := [{ Name := "syncthing-linux/syncthing", openErr := false,
                  body := { data := [7, 8], err := false } }],
    tailErr := true }

/-- A Linux environment that fetches `truncatedArchive`. -/
def truncatedEnv : Env :=
  { GOOS := "linux", Executable := .ok "/bin/syncthing", Dir := fun _ => "/bin",
    httpDo := fun _ => .ok truncatedArchive, Verify := fun _ _ _ => true }

/-- The state `sampleSys` with a script that lets the first six system calls
succeed and the seventh, the rename of the binary, fail. -/
def renameFailsSys : Sys :=
  { sampleSys with faults := [false, false, false, false, false, false, true] }

/-- The temp name `t` is empty, or the file at `t` holds the bytes of a payload
entry of the archive and is executable. -/
def HoldsPayload (entries : List Entry) (t : String) (s : Sys) : Prop :=
  t = "" ∨ ∃ e ∈ entries, payloadName (Base e.Name) = true ∧
    s.fs t = some { data := e.body.data, mode := 0o755 }

/-! ## Theorems about `versions.go` -/

theorem strLess_asymm : ∀ (s t : List Char), strLess s t = true → strLess t s = false
  | _, [], h => by simp [strLess] at h
  | [], _ :: _, _ => by simp [strLess]
  | x :: xs, y :: ys, h => by
    simp only [strLess] at h ⊢
    by_cases h1 : x.toNat < y.toNat
    · have h2 : ¬ y.toNat < x.toNat := by omega
      simp [h1, h2]
    · by_cases h2 : y.toNat < x.toNat
      · simp [h1, h2] at h
      · simp only [h1, h2, if_false] at h ⊢
        exact strLess_asymm xs ys h

theorem releaseLoop_swap (a0 : Int) :
    ∀ (xs ys : List Int) (i : Nat),
      releaseLoop a0 i ys xs = (releaseLoop a0 i xs ys).map (fun r => -r)
  | [], [], _ => by simp [releaseLoop]
  | [], _ :: _, _ => by simp [releaseLoop]
  | _ :: _, [], _ => by simp [releaseLoop]
  | x :: xs, y :: ys, i => by
    simp only [releaseLoop]
    rcases lt_trichotomy x y with h | h | h
    · have h2 : ¬ y < x := by omega
      have h3 : ¬ x > y := by omega
      have h4 : y > x := h
      simp only [h, h2, h3, h4, if_true, if_false]
      split_ifs <;> simp
    · subst h
      simp only [lt_irrefl, gt_iff_lt, if_false]
      exact releaseLoop_swap a0 xs ys (i + 1)
    · have h2 : ¬ x < y := by omega
      have h4 : x > y := h
      simp only [h, h2, h4, if_true, if_false]
      split_ifs <;> simp

theorem releaseLoop_top_swap (xs ys : List Int) :
    releaseLoop (ys.headD 0) 0 ys xs = (releaseLoop (xs.headD 0) 0 xs ys).map (fun r => -r) := by
  rw [← releaseLoop_swap]
  cases xs with
  | nil => cases ys <;> simp [releaseLoop]
  | cons x xs =>
    cases ys with
    | nil => simp [releaseLoop]
    | cons y ys =>
      simp only [List.headD_cons, releaseLoop]
      by_cases h : y = x
      · subst h; rfl
      · rcases lt_trichotomy y x with h1 | h1 | h1
        · simp [h1]
        · exact absurd h1 h
        · have h2 : ¬ y < x := by omega
          simp [h1, h2]

theorem prereleaseLoop_swap :
    ∀ (xs ys : List PreId), prereleaseLoop ys xs = (prereleaseLoop xs ys).map (fun r => -r)
  | [], [] => by simp [prereleaseLoop]
  | [], _ :: _ => by simp [prereleaseLoop]
  | _ :: _, [] => by simp [prereleaseLoop]
  | PreId.int a :: xs, PreId.int b :: ys => by
    simp only [prereleaseLoop]
    rcases lt_trichotomy a b with h | h | h
    · have h2 : ¬ b < a := by omega
      have h4 : b > a := h
      have h3 : ¬ a > b := by omega
      simp [h, h2, h3, h4]
    · subst h
      simp only [lt_irrefl, gt_iff_lt, if_false]
      exact prereleaseLoop_swap xs ys
    · have h2 : ¬ a < b := by omega
      have h4 : a > b := h
      simp [h, h2, h4]
  | PreId.int _ :: _, PreId.str _ :: _ => by simp [prereleaseLoop]
  | PreId.str _ :: _, PreId.int _ :: _ => by simp [prereleaseLoop]
  | PreId.str a :: xs, PreId.str b :: ys => by
    simp only [prereleaseLoop]
    cases h1 : strLess a b
    · cases h2 : strLess b a
      · simp only [Bool.false_eq_true, if_false]
        exact prereleaseLoop_swap xs ys
      · simp
    · have h2 := strLess_asymm a b h1
      simp [h2]

theorem compareParts_swap (arel : List Int) (apre : List PreId) (brel : List Int)
    (bpre : List PreId) :
    compareParts brel bpre arel apre = - compareParts arel apre brel bpre := by
  unfold compareParts
  rw [releaseLoop_top_swap arel brel, prereleaseLoop_swap apre bpre]
  cases releaseLoop (arel.headD 0) 0 arel brel with
  | some r => simp
  | none =>
    simp only [Option.map_none']
    cases prereleaseLoop apre bpre with
    | some r =>
      simp only [Option.map_some']
      split_ifs <;> first | rfl | omega
    | none =>
      simp only [Option.map_none']
      split_ifs <;> first | rfl | omega

theorem compareVersions_swap (a b : String) :
    compareVersions b a = - compareVersions a b :=
  compareParts_swap _ _ _ _

theorem compareVersions_self (a : String) : compareVersions a a = equal := by
  have key : ∀ x : Int, x = -x → x = 0 := fun x h => by omega
  exact key _ (compareVersions_swap a a)

theorem releaseLoop_range (a0 : Int) :
    ∀ (xs ys : List Int) (i : Nat) (r : Int),
      releaseLoop a0 i xs ys = some r → r = -2 ∨ r = -1 ∨ r = 1 ∨ r = 2
  | [], _, _, _, h => by simp [releaseLoop] at h
  | _ :: _, [], _, _, h => by simp [releaseLoop] at h
  | x :: xs, y :: ys, i, r, h => by
    simp only [releaseLoop] at h
    split_ifs at h <;>
      first
      | exact releaseLoop_range a0 xs ys _ r h
      | (simp only [Option.some.injEq] at h; subst h; simp)

theorem prereleaseLoop_range :
    ∀ (xs ys : List PreId) (r : Int), prereleaseLoop xs ys = some r → r = -1 ∨ r = 1
  | [], _, _, h => by simp [prereleaseLoop] at h
  | _ :: _, [], _, h => by simp [prereleaseLoop] at h
  | PreId.int a :: xs, PreId.int b :: ys, r, h => by
    simp only [prereleaseLoop] at h
    split_ifs at h <;>
      first
      | exact prereleaseLoop_range xs ys r h
      | (simp only [Option.some.injEq] at h; subst h; simp)
  | PreId.int _ :: _, PreId.str _ :: _, r, h => by
    simp only [prereleaseLoop, Option.some.injEq] at h; subst h; simp
  | PreId.str _ :: _, PreId.int _ :: _, r, h => by
    simp only [prereleaseLoop, Option.some.injEq] at h; subst h; simp
  | PreId.str a :: xs, PreId.str b :: ys, r, h => by
    simp only [prereleaseLoop] at h
    split_ifs at h <;>
      first
      | exact prereleaseLoop_range xs ys r h
      | (simp only [Option.some.injEq] at h; subst h; simp)

/-- The values `compareParts` can take. -/
theorem compareParts_range (arel : List Int) (apre : List PreId) (brel : List Int)
    (bpre : List PreId) :
    compareParts arel apre brel bpre = -2 ∨ compareParts arel apre brel bpre = -1 ∨
    compareParts arel apre brel bpre = 0 ∨ compareParts arel apre brel bpre = 1 ∨
    compareParts arel apre brel bpre = 2 := by
  unfold compareParts
  cases h1 : releaseLoop (arel.headD 0) 0 arel brel with
  | some r =>
    have := releaseLoop_range _ _ _ _ _ h1
    simp only
    rcases this with h | h | h | h <;> simp [h]
  | none =>
    simp only
    cases h2 : prereleaseLoop apre bpre with
    | some r =>
      have := prereleaseLoop_range _ _ _ h2
      simp only
      split_ifs <;> rcases this with h | h <;> simp [h]
    | none => simp only; split_ifs <;> simp

theorem SplitN2_headD_of_not_mem (sep : Char) :
    ∀ xs : List Char, sep ∉ xs → (SplitN2 sep xs).headD [] = xs
  | [], _ => by simp [SplitN2]
  | c :: cs, h => by
    have hc : ¬ c = sep := fun e => h (by simp [e])
    have hcs : sep ∉ cs := fun e => h (by simp [e])
    have ih := SplitN2_headD_of_not_mem sep cs hcs
    simp only [SplitN2, hc, if_false]
    cases hsp : SplitN2 sep cs with
    | nil => rw [hsp] at ih; simp at ih; simp [← ih]
    | cons p rest => rw [hsp] at ih; simp at ih; simp [ih]

theorem SplitN2_headD_append (sep : Char) (ys : List Char) :
    ∀ xs : List Char, sep ∉ xs → (SplitN2 sep (xs ++ sep :: ys)).headD [] = xs
  | [], _ => by simp [SplitN2]
  | c :: cs, h => by
    have hc : ¬ c = sep := fun e => h (by simp [e])
    have hcs : sep ∉ cs := fun e => h (by simp [e])
    have ih := SplitN2_headD_append sep ys cs hcs
    simp only [List.cons_append, SplitN2, hc, if_false]
    cases hsp : SplitN2 sep (cs ++ sep :: ys) with
    | nil => rw [hsp] at ih; simp at ih; simp [← ih]
    | cons p rest => rw [hsp] at ih; simp at ih; simp [ih]

/-- The parts of a version depend only on the text left after the leading `v`
is stripped and the build metadata is cut off. -/
theorem versionParts_eq_of_core (v w : String)
    (h : (SplitN2 '+' (match v.data with
            | [] => []
            | c :: cs => if c = 'v' ∨ c = 'V' then cs else c :: cs)).headD [] =
         (SplitN2 '+' (match w.data with
            | [] => []
            | c :: cs => if c = 'v' ∨ c = 'V' then cs else c :: cs)).headD []) :
    versionParts v = versionParts w := by
  unfold versionParts
  simp only [h]

theorem versionParts_strip_v (s : String)
    (h : s.data.head? ≠ some 'v' ∧ s.data.head? ≠ some 'V') :
    versionParts ("v" ++ s) = versionParts s ∧ versionParts ("V" ++ s) = versionParts s := by
  have hs : (match s.data with
      | [] => []
      | c :: cs => if c = 'v' ∨ c = 'V' then cs else c :: cs) = s.data := by
    cases hd : s.data with
    | nil => rfl
    | cons c cs =>
      rw [hd] at h
      simp only [List.head?_cons, ne_eq, Option.some.injEq] at h
      simp [h.1, h.2]
  constructor
  · apply versionParts_eq_of_core
    rw [hs]
    simp [String.data_append]
  · apply versionParts_eq_of_core
    rw [hs]
    simp [String.data_append]

theorem versionParts_build_metadata (s m : String) (h : '+' ∉ s.data) :
    versionParts (s ++ "+" ++ m) = versionParts s := by
  apply versionParts_eq_of_core
  simp only [String.data_append]
  cases hd : s.data with
  | nil => simp [SplitN2]
  | cons c cs =>
    rw [hd] at h
    have hcs : '+' ∉ cs := fun e => h (by simp [e])
    have hc : ¬ c = '+' := fun e => h (by simp [e])
    simp only [List.cons_append]
    by_cases hv : c = 'v' ∨ c = 'V'
    · simp only [hv, if_true]
      have e : cs ++ "+".data ++ m.data = cs ++ '+' :: m.data := by simp
      rw [e, SplitN2_headD_append _ _ _ hcs, SplitN2_headD_of_not_mem _ _ hcs]
    · simp only [hv, if_false]
      have e : c :: (cs ++ "+".data ++ m.data) = (c :: cs) ++ '+' :: m.data := by simp
      rw [e, SplitN2_headD_append _ _ _ h, SplitN2_headD_of_not_mem _ _ h]

theorem releaseLoop_self (a0 : Int) :
    ∀ (xs : List Int) (i : Nat), releaseLoop a0 i xs xs = none
  | [], _ => by simp [releaseLoop]
  | x :: xs, i => by
    simp only [releaseLoop, lt_irrefl, gt_iff_lt, if_false]
    exact releaseLoop_self a0 xs (i + 1)

/-- The first loop returns at the first index where the release components
differ. -/
theorem releaseLoop_first_diff (a0 : Int) :
    ∀ (k : Nat) (xs ys : List Int) (i : Nat),
      k < xs.length → k < ys.length → xs.getD k 0 ≠ ys.getD k 0 →
      (∀ j, j < k → xs.getD j 0 = ys.getD j 0) →
      releaseLoop a0 i xs ys =
        some (if xs.getD k 0 < ys.getD k 0 then
                (if i + k = 0 ∨ (i + k = 1 ∧ a0 = 0) then majorOlder else older)
              else
                (if i + k = 0 ∨ (i + k = 1 ∧ a0 = 0) then majorNewer else newer))
  | _, [], _, _, hx, _, _, _ => by simp at hx
  | _, _ :: _, [], _, _, hy, _, _ => by simp at hy
  | 0, x :: xs, y :: ys, i, _, _, hne, _ => by
    simp only [List.getD_cons_zero] at hne ⊢
    simp only [releaseLoop, Nat.add_zero]
    rcases lt_trichotomy x y with h | h | h
    · simp only [h, if_true]
      split_ifs <;> first | rfl | (exfalso; tauto)
    · exact absurd h hne
    · have h2 : ¬ x < y := by omega
      have h3 : x > y := h
      simp only [h2, h3, if_true, if_false]
      split_ifs <;> first | rfl | (exfalso; tauto)
  | k + 1, x :: xs, y :: ys, i, hx, hy, hne, heq => by
    have h0 : x = y := by simpa using heq 0 (Nat.succ_pos k)
    subst h0
    simp only [List.getD_cons_succ] at hne ⊢
    simp only [releaseLoop, lt_irrefl, gt_iff_lt, if_false]
    have ih := releaseLoop_first_diff a0 k xs ys (i + 1)
      (by simpa using hx) (by simpa using hy) hne
      (fun j hj => by simpa using heq (j + 1) (Nat.succ_lt_succ hj))
    rw [ih]
    have e : i + 1 + k = i + (k + 1) := by omega
    rw [e]


/-- The relation returned at the first differing index, read off its value. -/
theorem relation_at_difference (x y a0 b0 : Int) (i : Nat) (hne : x ≠ y)
    (hz : i = 1 → a0 = b0) (r : Int)
    (hr : r = if x < y then (if 0 + i = 0 ∨ (0 + i = 1 ∧ a0 = 0) then -2 else -1)
              else (if 0 + i = 0 ∨ (0 + i = 1 ∧ a0 = 0) then 2 else 1)) :
    ((r = 2 ∨ r = -2) ↔ (i = 0 ∨ (i = 1 ∧ a0 = 0 ∧ b0 = 0))) ∧
    ((r = 1 ∨ r = -1) ↔ ¬ (i = 0 ∨ (i = 1 ∧ a0 = 0 ∧ b0 = 0))) ∧
    ((r = 1 ∨ r = 2) ↔ x > y) := by
  subst hr
  split_ifs with h1 h2 h2
  all_goals
    refine ⟨⟨fun h => ?_, fun h => ?_⟩, ⟨fun h => ?_, fun h => ?_⟩, ⟨fun h => ?_, fun h => ?_⟩⟩
  all_goals first | omega | (exfalso; revert h; norm_num)


/-! ## The sign of `compareVersions` is a total preorder -/

theorem lexSign_range {α : Type} (lt : α → α → Bool) :
    ∀ xs ys : List α, lexSign lt xs ys = -1 ∨ lexSign lt xs ys = 0 ∨ lexSign lt xs ys = 1
  | [], [] => by simp [lexSign]
  | [], _ :: _ => by simp [lexSign]
  | _ :: _, [] => by simp [lexSign]
  | x :: xs, y :: ys => by
    simp only [lexSign]
    split_ifs
    · simp
    · simp
    · exact lexSign_range lt xs ys

theorem lexSign_swap {α : Type} (lt : α → α → Bool)
    (hasymm : ∀ a b, lt a b = true → lt b a = false) :
    ∀ xs ys : List α, lexSign lt ys xs = - lexSign lt xs ys
  | [], [] => by simp [lexSign]
  | [], _ :: _ => by simp [lexSign]
  | _ :: _, [] => by simp [lexSign]
  | x :: xs, y :: ys => by
    simp only [lexSign]
    cases h1 : lt x y
    · cases h2 : lt y x
      · simpa using lexSign_swap lt hasymm xs ys
      · simp
    · simp [hasymm x y h1]

theorem lexSign_eq_zero {α : Type} (lt : α → α → Bool)
    (hirr : ∀ a, lt a a = false)
    (htot : ∀ a b, lt a b = false → lt b a = false → a = b) :
    ∀ xs ys : List α, lexSign lt xs ys = 0 ↔ xs = ys
  | [], [] => by simp [lexSign]
  | [], _ :: _ => by simp [lexSign]
  | _ :: _, [] => by simp [lexSign]
  | x :: xs, y :: ys => by
    simp only [lexSign]
    cases h1 : lt x y
    · cases h2 : lt y x
      · have ih := lexSign_eq_zero lt hirr htot xs ys
        have hxy := htot x y h1 h2
        subst hxy
        simp [ih]
      · have hne : x ≠ y := by
          rintro rfl
          rw [hirr x] at h2
          exact Bool.noConfusion h2
        simp [hne]
    · have hne : x ≠ y := by
        rintro rfl
        rw [hirr x] at h1
        exact Bool.noConfusion h1
      simp [hne]

theorem lexSign_trans {α : Type} (lt : α → α → Bool)
    (hirr : ∀ a, lt a a = false)
    (htrans : ∀ a b c, lt a b = true → lt b c = true → lt a c = true)
    (htot : ∀ a b, lt a b = false → lt b a = false → a = b) :
    ∀ xs ys zs : List α,
      lexSign lt xs ys = 1 → lexSign lt ys zs = 1 → lexSign lt xs zs = 1
  | [], [], _, h, _ => by simp [lexSign] at h
  | [], _ :: _, _, h, _ => by simp [lexSign] at h
  | _ :: _, [], [], _, h => by simp [lexSign] at h
  | _ :: _, [], _ :: _, _, h => by simp [lexSign] at h
  | _ :: _, _ :: _, [], _, _ => by simp [lexSign]
  | x :: xs, y :: ys, z :: zs, h1, h2 => by
    simp only [lexSign] at h1 h2 ⊢
    cases hxy : lt x y
    · cases hyx : lt y x
      · have e := htot x y hxy hyx
        subst e
        simp only [hxy, Bool.false_eq_true, if_false] at h1
        cases hxz : lt x z
        · cases hzx : lt z x
          · simp only [hxz, hzx, Bool.false_eq_true, if_false] at h2 ⊢
            exact lexSign_trans lt hirr htrans htot xs ys zs h1 h2
          · simp
        · simp [hxz] at h2
      · -- y < x
        cases hyz : lt y z
        · cases hzy : lt z y
          · have e := htot y z hyz hzy
            subst e
            simp [hxy, hyx]
          · have hzx := htrans z y x hzy hyx
            have hxz : lt x z = false := by
              cases hxz : lt x z
              · rfl
              · have := htrans x z x hxz hzx
                rw [hirr x] at this
                exact Bool.noConfusion this
            simp [hxz, hzx]
        · simp [hyz] at h2
    · simp [hxy] at h1


theorem strLess_irrefl : ∀ s : List Char, strLess s s = false
  | [] => by simp [strLess]
  | x :: xs => by
    simp only [strLess, lt_irrefl, if_false]
    exact strLess_irrefl xs

theorem strLess_trans : ∀ s t u : List Char,
    strLess s t = true → strLess t u = true → strLess s u = true
  | _, [], _, h, _ => by simp [strLess] at h
  | _, _ :: _, [], _, h => by simp [strLess] at h
  | [], _ :: _, _ :: _, _, _ => by simp [strLess]
  | x :: xs, y :: ys, z :: zs, h1, h2 => by
    simp only [strLess] at h1 h2 ⊢
    by_cases hxy : x.toNat < y.toNat
    · by_cases hyz : y.toNat < z.toNat
      · have : x.toNat < z.toNat := by omega
        simp [this]
      · by_cases hzy : z.toNat < y.toNat
        · simp [hyz, hzy] at h2
        · have : x.toNat < z.toNat := by omega
          simp [this]
    · by_cases hyx : y.toNat < x.toNat
      · simp [hxy, hyx] at h1
      · simp only [hxy, hyx, if_false] at h1
        by_cases hyz : y.toNat < z.toNat
        · have : x.toNat < z.toNat := by omega
          simp [this]
        · by_cases hzy : z.toNat < y.toNat
          · simp [hyz, hzy] at h2
          · simp only [hyz, hzy, if_false] at h2
            have a1 : ¬ x.toNat < z.toNat := by omega
            have a2 : ¬ z.toNat < x.toNat := by omega
            simp only [a1, a2, if_false]
            exact strLess_trans xs ys zs h1 h2

theorem strLess_total : ∀ s t : List Char,
    strLess s t = false → strLess t s = false → s = t
  | [], [], _, _ => rfl
  | [], _ :: _, h, _ => by simp [strLess] at h
  | _ :: _, [], _, h => by simp [strLess] at h
  | x :: xs, y :: ys, h1, h2 => by
    simp only [strLess] at h1 h2
    by_cases hxy : x.toNat < y.toNat
    · simp [hxy] at h1
    · by_cases hyx : y.toNat < x.toNat
      · simp [hyx] at h2
      · simp only [hxy, hyx, if_false] at h1 h2
        have e : x.toNat = y.toNat := by omega
        have exy : x = y := by
          apply Char.ext
          apply UInt32.ext
          exact e
        rw [exy, strLess_total xs ys h1 h2]

theorem preLess_irrefl : ∀ a : PreId, preLess a a = false
  | PreId.int a => by simp [preLess]
  | PreId.str s => by simp [preLess, strLess_irrefl]

theorem preLess_asymm : ∀ a b : PreId, preLess a b = true → preLess b a = false
  | PreId.int a, PreId.int b, h => by
    simp only [preLess, decide_eq_true_eq, decide_eq_false_iff_not] at h ⊢
    omega
  | PreId.int _, PreId.str _, _ => by simp [preLess]
  | PreId.str _, PreId.int _, h => by simp [preLess] at h
  | PreId.str a, PreId.str b, h => by
    simp only [preLess] at h ⊢
    exact strLess_asymm a b h

theorem preLess_trans : ∀ a b c : PreId,
    preLess a b = true → preLess b c = true → preLess a c = true
  | PreId.int a, PreId.int b, PreId.int c, h1, h2 => by
    simp only [preLess, decide_eq_true_eq] at h1 h2 ⊢
    omega
  | PreId.int _, PreId.int _, PreId.str _, _, _ => by simp [preLess]
  | PreId.int _, PreId.str _, PreId.int _, _, h => by simp [preLess] at h
  | PreId.int _, PreId.str _, PreId.str _, _, _ => by simp [preLess]
  | PreId.str _, PreId.int _, _, h, _ => by simp [preLess] at h
  | PreId.str _, PreId.str _, PreId.int _, _, h => by simp [preLess] at h
  | PreId.str a, PreId.str b, PreId.str c, h1, h2 => by
    simp only [preLess] at h1 h2 ⊢
    exact strLess_trans a b c h1 h2

theorem preLess_total : ∀ a b : PreId, preLess a b = false → preLess b a = false → a = b
  | PreId.int a, PreId.int b, h1, h2 => by
    simp only [preLess, decide_eq_false_iff_not] at h1 h2
    have : a = b := by omega
    rw [this]
  | PreId.int _, PreId.str _, h, _ => by simp [preLess] at h
  | PreId.str _, PreId.int _, _, h => by simp [preLess] at h
  | PreId.str a, PreId.str b, h1, h2 => by
    simp only [preLess] at h1 h2
    rw [strLess_total a b h1 h2]

theorem intLess_irrefl : ∀ a : Int, decide (a < a) = false := by
  intro a; simp

theorem intLess_asymm : ∀ a b : Int, decide (a < b) = true → decide (b < a) = false := by
  intro a b h
  simp only [decide_eq_true_eq, decide_eq_false_iff_not] at h ⊢
  omega

theorem intLess_trans : ∀ a b c : Int,
    decide (a < b) = true → decide (b < c) = true → decide (a < c) = true := by
  intro a b c h1 h2
  simp only [decide_eq_true_eq] at h1 h2 ⊢
  omega

theorem intLess_total : ∀ a b : Int,
    decide (a < b) = false → decide (b < a) = false → a = b := by
  intro a b h1 h2
  simp only [decide_eq_false_iff_not] at h1 h2
  omega


theorem signOrder_refl {α : Type} {c : α → α → Int} (h : SignOrder c) (a : α) : c a a = 0 := by
  have := h.swap a a
  omega

theorem signOrder_ge_trans {α : Type} {c : α → α → Int} (h : SignOrder c) (a b d : α)
    (h1 : 0 ≤ c a b) (h2 : 0 ≤ c b d) :
    0 ≤ c a d ∧ ((0 < c a b ∨ 0 < c b d) → 0 < c a d) := by
  rcases h.range a b with e1 | e1 | e1
  · omega
  · have := h.eq_of_zero a b e1
    subst this
    refine ⟨h2, fun hh => ?_⟩
    omega
  · rcases h.range b d with e2 | e2 | e2
    · omega
    · have := h.eq_of_zero b d e2
      subst this
      refine ⟨h1, fun _ => ?_⟩
      omega
    · have := h.trans a b d e1 e2
      omega

theorem signOrder_lex {α β : Type} {c1 : α → α → Int} {c2 : β → β → Int}
    (h1 : SignOrder c1) (h2 : SignOrder c2) :
    SignOrder (fun p q : α × β => if c1 p.1 q.1 ≠ 0 then c1 p.1 q.1 else c2 p.2 q.2) where
  range := by
    intro a b
    split_ifs
    · exact h1.range _ _
    · exact h2.range _ _
  swap := by
    intro a b
    have s1 := h1.swap a.1 b.1
    have s2 := h2.swap a.2 b.2
    split_ifs <;> omega
  eq_of_zero := by
    intro a b h
    split_ifs at h with hc
    · exact absurd h hc
    · have e1 := h1.eq_of_zero _ _ (not_not.mp hc)
      have e2 := h2.eq_of_zero _ _ h
      exact Prod.ext e1 e2
  trans := by
    intro a b d hab hbd
    by_cases c_ab : c1 a.1 b.1 = 0
    · have e := h1.eq_of_zero _ _ c_ab
      rw [if_neg (not_not.mpr c_ab)] at hab
      by_cases c_bd : c1 b.1 d.1 = 0
      · have e' := h1.eq_of_zero _ _ c_bd
        rw [if_neg (not_not.mpr c_bd)] at hbd
        have c_ad : c1 a.1 d.1 = 0 := by rw [e, e']; exact signOrder_refl h1 _
        rw [if_neg (not_not.mpr c_ad)]
        exact h2.trans _ _ _ hab hbd
      · rw [if_pos c_bd] at hbd
        rw [e, if_pos c_bd]
        exact hbd
    · rw [if_pos c_ab] at hab
      by_cases c_bd : c1 b.1 d.1 = 0
      · have e' := h1.eq_of_zero _ _ c_bd
        rw [← e', if_pos c_ab]
        exact hab
      · rw [if_pos c_bd] at hbd
        have := h1.trans _ _ _ hab hbd
        rw [if_pos (by omega)]
        exact this

theorem signOrder_lexSign {α : Type} (lt : α → α → Bool)
    (hirr : ∀ a, lt a a = false)
    (hasymm : ∀ a b, lt a b = true → lt b a = false)
    (htrans : ∀ a b c, lt a b = true → lt b c = true → lt a c = true)
    (htot : ∀ a b, lt a b = false → lt b a = false → a = b) :
    SignOrder (lexSign lt) where
  range := lexSign_range lt
  swap := lexSign_swap lt hasymm
  eq_of_zero := fun a b h => (lexSign_eq_zero lt hirr htot a b).mp h
  trans := lexSign_trans lt hirr htrans htot

theorem signOrder_release : SignOrder (lexSign (fun x y : Int => decide (x < y))) :=
  signOrder_lexSign _ intLess_irrefl intLess_asymm intLess_trans intLess_total

theorem signOrder_identifiers : SignOrder (lexSign preLess) :=
  signOrder_lexSign _ preLess_irrefl preLess_asymm preLess_trans preLess_total

theorem signOrder_preSign : SignOrder preSign where
  range := by
    intro a b
    unfold preSign
    split_ifs
    · simp
    · simp
    · exact signOrder_identifiers.range a b
  swap := by
    intro a b
    unfold preSign
    have := signOrder_identifiers.swap a b
    split_ifs <;> first | omega | tauto
  eq_of_zero := by
    intro a b h
    unfold preSign at h
    split_ifs at h
    all_goals first
      | exact signOrder_identifiers.eq_of_zero a b h
      | (exfalso; revert h; norm_num)
  trans := by
    intro a b d hab hbd
    unfold preSign at hab hbd ⊢
    by_cases ha : a = []
    · by_cases hd : d = []
      · subst ha hd
        by_cases hb : b = []
        · subst hb; simp [lexSign] at hab
        · simp [hb] at hbd
      · simp [ha, hd]
    · by_cases hb : b = []
      · simp [ha, hb] at hab
      · by_cases hd : d = []
        · simp [hb, hd] at hbd
        · simp only [ha, hb, hd, false_and, and_false, if_false, ne_eq, not_false_eq_true,
            not_true_eq_false] at hab hbd ⊢
          exact signOrder_identifiers.trans a b d hab hbd

theorem signOrder_partsSign : SignOrder partsSign :=
  signOrder_lex signOrder_release signOrder_preSign


theorem releaseLoop_some_sign (a0 : Int) :
    ∀ (xs ys : List Int) (i : Nat) (r : Int), releaseLoop a0 i xs ys = some r →
      (0 < r ∧ lexSign (fun x y : Int => decide (x < y)) xs ys = 1) ∨
      (r < 0 ∧ lexSign (fun x y : Int => decide (x < y)) xs ys = -1)
  | [], _, _, _, h => by simp [releaseLoop] at h
  | _ :: _, [], _, _, h => by simp [releaseLoop] at h
  | x :: xs, y :: ys, i, r, h => by
    simp only [releaseLoop] at h
    simp only [lexSign, decide_eq_true_eq]
    by_cases h1 : x < y
    · simp only [h1, if_true] at h ⊢
      right
      split_ifs at h <;> (simp only [Option.some.injEq] at h; subst h; simp)
    · by_cases h2 : x > y
      · have h3 : y < x := h2
        simp only [h1, h2, h3, if_true, if_false] at h ⊢
        left
        split_ifs at h <;> (simp only [Option.some.injEq] at h; subst h; simp)
      · have h3 : ¬ y < x := h2
        simp only [h1, h2, h3, if_false] at h ⊢
        exact releaseLoop_some_sign a0 xs ys (i + 1) r h

theorem releaseLoop_none_sign (a0 : Int) :
    ∀ (xs ys : List Int) (i : Nat), releaseLoop a0 i xs ys = none →
      lexSign (fun x y : Int => decide (x < y)) xs ys =
        (if xs.length < ys.length then -1 else if xs.length > ys.length then 1 else 0)
  | [], [], _, _ => by simp [lexSign]
  | [], _ :: _, _, _ => by simp [lexSign]
  | _ :: _, [], _, _ => by simp [lexSign]
  | x :: xs, y :: ys, i, h => by
    simp only [releaseLoop] at h
    simp only [lexSign, decide_eq_true_eq]
    by_cases h1 : x < y
    · simp only [h1, if_true] at h
      split_ifs at h
    · by_cases h2 : x > y
      · simp only [h1, h2, if_true, if_false] at h
        split_ifs at h
      · have h3 : ¬ y < x := h2
        simp only [h1, h2, h3, if_false] at h ⊢
        rw [releaseLoop_none_sign a0 xs ys (i + 1) h]
        simp only [List.length_cons, Nat.add_lt_add_iff_right, gt_iff_lt]

theorem prereleaseLoop_some_sign :
    ∀ (xs ys : List PreId) (r : Int), prereleaseLoop xs ys = some r →
      (0 < r ∧ lexSign preLess xs ys = 1) ∨ (r < 0 ∧ lexSign preLess xs ys = -1)
  | [], _, _, h => by simp [prereleaseLoop] at h
  | _ :: _, [], _, h => by simp [prereleaseLoop] at h
  | PreId.int a :: xs, PreId.int b :: ys, r, h => by
    simp only [prereleaseLoop] at h
    simp only [lexSign, preLess, decide_eq_true_eq]
    by_cases h1 : a < b
    · simp only [h1, if_true, Option.some.injEq] at h ⊢
      subst h; simp
    · by_cases h2 : a > b
      · have h3 : b < a := h2
        simp only [h1, h2, h3, if_true, if_false, Option.some.injEq] at h ⊢
        subst h; simp
      · have h3 : ¬ b < a := h2
        simp only [h1, h2, h3, if_false] at h ⊢
        exact prereleaseLoop_some_sign xs ys r h
  | PreId.int _ :: _, PreId.str _ :: _, r, h => by
    simp only [prereleaseLoop, Option.some.injEq] at h
    subst h; simp [lexSign, preLess]
  | PreId.str _ :: _, PreId.int _ :: _, r, h => by
    simp only [prereleaseLoop, Option.some.injEq] at h
    subst h; simp [lexSign, preLess]
  | PreId.str a :: xs, PreId.str b :: ys, r, h => by
    simp only [prereleaseLoop] at h
    simp only [lexSign, preLess]
    by_cases h1 : strLess a b = true
    · simp only [h1, if_true, Option.some.injEq] at h ⊢
      subst h; simp
    · by_cases h2 : strLess b a = true
      · rw [if_neg h1, if_pos h2, Option.some.injEq] at h
        rw [if_neg h1, if_pos h2]
        subst h; simp
      · rw [if_neg h1, if_neg h2] at h
        rw [if_neg h1, if_neg h2]
        exact prereleaseLoop_some_sign xs ys r h

theorem prereleaseLoop_none_sign :
    ∀ (xs ys : List PreId), prereleaseLoop xs ys = none →
      lexSign preLess xs ys =
        (if xs.length < ys.length then -1 else if xs.length > ys.length then 1 else 0)
  | [], [], _ => by simp [lexSign]
  | [], _ :: _, _ => by simp [lexSign]
  | _ :: _, [], _ => by simp [lexSign]
  | PreId.int a :: xs, PreId.int b :: ys, h => by
    simp only [prereleaseLoop] at h
    simp only [lexSign, preLess, decide_eq_true_eq]
    by_cases h1 : a < b
    · simp [h1] at h
    · by_cases h2 : a > b
      · simp [h1, h2] at h
      · have h3 : ¬ b < a := h2
        simp only [h1, h2, h3, if_false] at h ⊢
        rw [prereleaseLoop_none_sign xs ys h]
        simp only [List.length_cons, Nat.add_lt_add_iff_right, gt_iff_lt]
  | PreId.int _ :: _, PreId.str _ :: _, h => by simp [prereleaseLoop] at h
  | PreId.str _ :: _, PreId.int _ :: _, h => by simp [prereleaseLoop] at h
  | PreId.str a :: xs, PreId.str b :: ys, h => by
    simp only [prereleaseLoop] at h
    simp only [lexSign, preLess]
    by_cases h1 : strLess a b = true
    · simp [h1] at h
    · by_cases h2 : strLess b a = true
      · simp [h1, h2] at h
      · rw [if_neg h1, if_neg h2] at h
        rw [if_neg h1, if_neg h2, prereleaseLoop_none_sign xs ys h]
        simp only [List.length_cons, Nat.add_lt_add_iff_right, gt_iff_lt]

/-- The sign of `compareParts` is `partsSign`. -/
theorem compareParts_sign (arel : List Int) (apre : List PreId) (brel : List Int)
    (bpre : List PreId) :
    ((0 : Int) < compareParts arel apre brel bpre ↔ 0 < partsSign (arel, apre) (brel, bpre)) ∧
    (compareParts arel apre brel bpre < (0 : Int) ↔ partsSign (arel, apre) (brel, bpre) < 0) := by
  unfold compareParts partsSign
  cases h1 : releaseLoop (arel.headD 0) 0 arel brel with
  | some r =>
    rcases releaseLoop_some_sign _ _ _ _ _ h1 with ⟨hr, hs⟩ | ⟨hr, hs⟩
    · simp only [hs]; constructor <;> constructor <;> intro h <;> first | omega | linarith
    · simp only [hs]; constructor <;> constructor <;> intro h <;> first | omega | linarith
  | none =>
    have hs := releaseLoop_none_sign _ _ _ _ h1
    simp only [hs]
    by_cases hl1 : arel.length < brel.length
    · simp [hl1]
    · by_cases hl2 : arel.length > brel.length
      · simp [hl1, hl2]
      · simp only [hl1, hl2, if_false, ne_eq, not_true_eq_false]
        unfold preSign
        by_cases c1 : apre = [] ∧ bpre ≠ []
        · have c1' : apre.length = 0 ∧ bpre.length > 0 :=
            ⟨by simp [c1.1], List.length_pos.mpr c1.2⟩
          simp [c1, c1']
        · have c1' : ¬ (apre.length = 0 ∧ bpre.length > 0) := by
            rintro ⟨e1, e2⟩
            exact c1 ⟨List.length_eq_zero.mp e1, List.length_pos.mp e2⟩
          by_cases c2 : apre ≠ [] ∧ bpre = []
          · have c2' : apre.length > 0 ∧ bpre.length = 0 :=
              ⟨List.length_pos.mpr c2.1, by simp [c2.2]⟩
            simp [c1, c1', c2, c2']
          · have c2' : ¬ (apre.length > 0 ∧ bpre.length = 0) := by
              rintro ⟨e1, e2⟩
              exact c2 ⟨List.length_pos.mp e1, List.length_eq_zero.mp e2⟩
            simp only [c1, c1', c2, c2', if_false]
            cases h2 : prereleaseLoop apre bpre with
            | some r =>
              rcases prereleaseLoop_some_sign _ _ _ h2 with ⟨hr, hs2⟩ | ⟨hr, hs2⟩
              · simp only [hs2]; constructor <;> constructor <;> intro h <;> first | omega | linarith
              · simp only [hs2]; constructor <;> constructor <;> intro h <;> first | omega | linarith
            | none =>
              rw [prereleaseLoop_none_sign _ _ h2]
              split_ifs <;> simp

/-- The sign of `compareVersions` is transitive: it is a total preorder. -/
theorem compareVersions_trans (a b c : String)
    (h1 : (0 : Int) ≤ compareVersions a b) (h2 : (0 : Int) ≤ compareVersions b c) :
    (0 : Int) ≤ compareVersions a c ∧
      (((0 : Int) < compareVersions a b ∨ (0 : Int) < compareVersions b c) →
        (0 : Int) < compareVersions a c) := by
  have sab := compareParts_sign (versionParts a).1 (versionParts a).2
    (versionParts b).1 (versionParts b).2
  have sbc := compareParts_sign (versionParts b).1 (versionParts b).2
    (versionParts c).1 (versionParts c).2
  have sac := compareParts_sign (versionParts a).1 (versionParts a).2
    (versionParts c).1 (versionParts c).2
  have key := signOrder_ge_trans signOrder_partsSign
    ((versionParts a).1, (versionParts a).2) ((versionParts b).1, (versionParts b).2)
    ((versionParts c).1, (versionParts c).2)
  unfold compareVersions at h1 h2 ⊢
  have k1 : 0 ≤ partsSign ((versionParts a).1, (versionParts a).2)
      ((versionParts b).1, (versionParts b).2) := by
    by_contra hc
    have := sab.2.mpr (by omega)
    linarith
  have k2 : 0 ≤ partsSign ((versionParts b).1, (versionParts b).2)
      ((versionParts c).1, (versionParts c).2) := by
    by_contra hc
    have := sbc.2.mpr (by omega)
    linarith
  have k := key k1 k2
  constructor
  · by_contra hc
    have := sac.2.mp (by linarith)
    omega
  · intro hh
    apply sac.1.mpr
    apply k.2
    rcases hh with hh | hh
    · exact Or.inl (sab.1.mp hh)
    · exact Or.inr (sbc.1.mp hh)


/-! ## Theorems about `releases.go` -/

theorem compareVersions_pos_iff (a b : String) :
    (0 : Int) < compareVersions a b ↔
      (compareVersions a b = newer ∨ compareVersions a b = majorNewer) := by
  have h := compareParts_range (versionParts a).1 (versionParts a).2
    (versionParts b).1 (versionParts b).2
  unfold compareVersions
  constructor
  · intro hp
    rcases h with h | h | h | h | h
    · rw [h] at hp; exact absurd hp (by norm_num)
    · rw [h] at hp; exact absurd hp (by norm_num)
    · rw [h] at hp; exact absurd hp (by norm_num)
    · exact Or.inl h
    · exact Or.inr h
  · rintro (h | h) <;> rw [h] <;> norm_num

theorem Less_false_iff (x y : Release) :
    sortByRelease.Less y x = false ↔ (0 : Int) ≤ compareVersions x.Version y.Version := by
  unfold sortByRelease.Less
  rw [decide_eq_false_iff_not, compareVersions_swap x.Version y.Version]
  constructor
  · intro h; linarith [not_lt.mp h]
  · intro h; exact not_lt.mpr (by linarith)

theorem serve_delivers (catalog : List ghRel) (project : String) :
    Delivers (serve catalog) project catalog :=
  ⟨{ StatusCode := 200, Status := "200 OK", Body := .ok catalog }, rfl,
    show (200 : Int) ≤ 299 by decide, rfl⟩

theorem filterLoop_eq (cur : String) (major pre : Bool) :
    ∀ (l : List ghRel) (rels : List Release),
      filterLoop cur major pre l rels =
        rels ++ (l.filter (eligible cur major pre)).map toRelease
  | [], rels => by simp [filterLoop]
  | r :: rest, rels => by
    have hpos := compareVersions_pos_iff r.Tag cur
    simp only [filterLoop]
    by_cases hp : r.Prerelease = true ∧ ¬ pre = true
    · have he : eligible cur major pre r = false := by
        unfold eligible
        rw [decide_eq_false_iff_not]
        rintro ⟨_, _, h3⟩
        exact hp.2 (h3 hp.1)
      rw [if_pos hp, List.filter_cons_of_neg (by simp [he])]
      exact filterLoop_eq cur major pre rest rels
    · rw [if_neg hp]
      by_cases hc : compareVersions r.Tag cur ≤ 0
      · have he : eligible cur major pre r = false := by
          unfold eligible
          rw [decide_eq_false_iff_not]
          rintro ⟨h1, _, _⟩
          have := hpos.mpr h1
          linarith
        rw [if_pos hc, List.filter_cons_of_neg (by simp [he])]
        exact filterLoop_eq cur major pre rest rels
      · rw [if_neg hc]
        by_cases hm : compareVersions r.Tag cur = majorNewer ∧ ¬ major = true
        · have he : eligible cur major pre r = false := by
            unfold eligible
            rw [decide_eq_false_iff_not]
            rintro ⟨_, h2, _⟩
            exact hm.2 (h2 hm.1)
          rw [if_pos hm, List.filter_cons_of_neg (by simp [he])]
          exact filterLoop_eq cur major pre rest rels
        · have he : eligible cur major pre r = true := by
            unfold eligible
            rw [decide_eq_true_eq]
            refine ⟨hpos.mp (by linarith [not_le.mp hc]), fun h => ?_, fun h => ?_⟩
            · by_contra hn; exact hm ⟨h, hn⟩
            · by_contra hn; exact hp ⟨h, hn⟩
          rw [if_neg hm, List.filter_cons_of_pos he, filterLoop_eq cur major pre rest]
          simp [toRelease]

/-- On an accepted response `GithubReleases` returns the first `maxReleases`
elements of the sorted list of eligible releases, and no error. -/
theorem GithubReleases_eq (sortFn : List Release → List Release)
    (httpGet : String → Except String Response) (project cur : String) (major pre : Bool)
    (catalog : List ghRel) (hresp : Delivers httpGet project catalog) :
    GithubReleases sortFn httpGet project cur major pre =
      ((sortFn ((catalog.filter (eligible cur major pre)).map toRelease)).take maxReleases,
        none) := by
  obtain ⟨resp, hget, hcode, hbody⟩ := hresp
  unfold GithubReleases
  rw [hget]
  simp only
  rw [if_neg (not_lt.mpr hcode), hbody]
  simp only [filterLoop_eq, List.nil_append]
  split_ifs with h
  · rfl
  · rw [List.take_of_length_le (not_lt.mp h)]

theorem insertionSort_contract : SortContract insertionSortByRelease := by
  intro l
  haveI : IsTotal Release (fun x y => sortByRelease.Less y x = false) :=
    ⟨fun x y => by
      rw [Less_false_iff, Less_false_iff]
      have := compareVersions_swap x.Version y.Version
      by_cases h : (0 : Int) ≤ compareVersions x.Version y.Version
      · exact Or.inl h
      · right; linarith [not_le.mp h]⟩
  haveI : IsTrans Release (fun x y => sortByRelease.Less y x = false) :=
    ⟨fun x y z => by
      rw [Less_false_iff, Less_false_iff, Less_false_iff]
      intro h1 h2
      exact (compareVersions_trans _ _ _ h1 h2).1⟩
  exact ⟨List.perm_insertionSort _ l, List.sorted_insertionSort _ l⟩

theorem pairwise_getElem? {α : Type} {R : α → α → Prop} {l : List α} (h : l.Pairwise R)
    (i j : Nat) (x y : α) (hij : i < j) (hx : l[i]? = some x) (hy : l[j]? = some y) :
    R x y := by
  rw [List.pairwise_iff_getElem] at h
  obtain ⟨hi, rfl⟩ := List.getElem?_eq_some_iff.mp hx
  obtain ⟨hj, rfl⟩ := List.getElem?_eq_some_iff.mp hy
  exact h i j hi hj hij


/-! ## Theorems about `upgrade.go` -/

theorem Frame.rfl (p : String) (s : Sys) : Frame p s s := ⟨Eq.refl _, Eq.refl _, id⟩

theorem Frame.comp {p : String} {s t u : Sys} (h1 : Frame p s t) (h2 : Frame p t u) :
    Frame p s u :=
  ⟨h2.1.trans h1.1, h2.2.1.trans h1.2.1, fun h => h2.2.2 (h1.2.2 h)⟩

theorem nextFault_frame (_p : String) (s : Sys) :
    (nextFault s).2.fs = s.fs ∧ (nextFault s).2.names = s.names ∧
      (nextFault s).2.log = s.log := by
  unfold nextFault
  cases s.faults <;> simp

theorem renames_append_of_not_rename (log : List Event) (e : Event)
    (h : ∀ a b, e ≠ Event.rename a b) : renames (log ++ [e]) = renames log := by
  unfold renames
  rw [List.filter_append]
  cases e <;> simp at h ⊢

theorem osRemove_frame (p name : String) (s : Sys) (h : name = "" ∨ name ≠ p) :
    Frame p s (osRemove name s).2 := by
  obtain ⟨h1, h2, h3⟩ := nextFault_frame p s
  unfold osRemove
  simp only
  split_ifs with hc
  · exact ⟨by rw [h1], by rw [h3], fun hs => by
      unfold Shielded at hs ⊢; rw [h1, h2]; exact hs⟩
  · have hne : name ≠ p := by
      rcases h with h | h
      · exact absurd (Or.inr (Or.inl h)) hc
      · exact h
    have hp : ¬ p = name := fun e => hne e.symm
    refine ⟨?_, ?_, ?_⟩
    · simp only [hp, if_false]; rw [h1]
    · simp only; rw [renames_append_of_not_rename _ _ (by simp), h3]
    · intro hs
      unfold Shielded at hs ⊢
      simp only [hp, if_false]
      rw [h1, h2]; exact hs

theorem ioCopy_frame (p name : String) (r : Reader) (s : Sys) (h : name ≠ p) :
    Frame p s (ioCopy name r s).2 := by
  obtain ⟨h1, h2, h3⟩ := nextFault_frame p s
  have hp : ¬ p = name := fun e => h e.symm
  unfold ioCopy
  simp only
  split_ifs
  · exact ⟨by rw [h1], by rw [h3], fun hs => by
      unfold Shielded at hs ⊢; rw [h1, h2]; exact hs⟩
  all_goals
    refine ⟨?_, ?_, ?_⟩
    · simp only [hp, if_false]; rw [h1]
    · simp only; rw [renames_append_of_not_rename _ _ (by simp), h3]
    · intro hs
      unfold Shielded at hs ⊢
      simp only [hp, if_false]
      rw [h1, h2]; exact hs

theorem fileClose_frame (p name : String) (s : Sys) :
    Frame p s (fileClose name s).2 := by
  obtain ⟨h1, h2, h3⟩ := nextFault_frame p s
  unfold fileClose
  simp only
  split_ifs <;>
    exact ⟨by rw [h1], by rw [h3], fun hs => by
      unfold Shielded at hs ⊢; rw [h1, h2]; exact hs⟩

theorem osChmod_frame (p name : String) (mode : Nat) (s : Sys) (h : name ≠ p) :
    Frame p s (osChmod name mode s).2 := by
  obtain ⟨h1, h2, h3⟩ := nextFault_frame p s
  have hp : ¬ p = name := fun e => h e.symm
  unfold osChmod
  simp only
  split_ifs
  · exact ⟨by rw [h1], by rw [h3], fun hs => by
      unfold Shielded at hs ⊢; rw [h1, h2]; exact hs⟩
  · refine ⟨?_, ?_, ?_⟩
    · simp only [hp, if_false]; rw [h1]
    · simp only; rw [renames_append_of_not_rename _ _ (by simp), h3]
    · intro hs
      unfold Shielded at hs ⊢
      simp only [hp, if_false]
      rw [h1, h2]; exact hs

theorem osOpen_frame (p name : String) (s : Sys) :
    Frame p s (osOpen name s).2 := by
  obtain ⟨h1, h2, h3⟩ := nextFault_frame p s
  unfold osOpen
  simp only
  split_ifs
  · exact ⟨by rw [h1], by rw [h3], fun hs => by
      unfold Shielded at hs ⊢; rw [h1, h2]; exact hs⟩
  · cases (nextFault s).2.fs name <;>
      exact ⟨by rw [h1], by rw [h3], fun hs => by
        unfold Shielded at hs ⊢; rw [h1, h2]; exact hs⟩

theorem pickName_spec (fs : String → Option File) :
    ∀ (names : List String) (n : String) (rest : List String),
      pickName fs names = some (n, rest) →
        (fs n).isNone ∧ n ∈ names ∧ ∀ q, q ∈ rest → q ∈ names
  | [], _, _, h => by simp [pickName] at h
  | m :: ms, n, rest, h => by
    simp only [pickName] at h
    split_ifs at h with hc
    · simp only [Option.some.injEq, Prod.mk.injEq] at h
      obtain ⟨rfl, rfl⟩ := h
      exact ⟨hc, by simp, fun q hq => by simp [hq]⟩
    · obtain ⟨a, b, c⟩ := pickName_spec fs ms n rest h
      exact ⟨a, by simp [b], fun q hq => by simp [c q hq]⟩

/-- The call `ioutil.TempFile` leaves a shielded path alone and returns a name
different from it. -/
theorem ioutilTempFile_frame (p dir pattern : String) (s : Sys) (hs : Shielded p s) :
    Frame p s (ioutilTempFile dir pattern s).2 ∧
      ∀ n, (ioutilTempFile dir pattern s).1 = .ok n → n ≠ p := by
  obtain ⟨h1, h2, h3⟩ := nextFault_frame p s
  unfold ioutilTempFile
  simp only
  split_ifs
  · exact ⟨⟨by rw [h1], by rw [h3], fun hs => by
      unfold Shielded at hs ⊢; rw [h1, h2]; exact hs⟩, fun n hn => by simp at hn⟩
  · cases hpick : pickName (nextFault s).2.fs (nextFault s).2.names with
    | none =>
      simp only
      exact ⟨⟨by rw [h1], by rw [h3], fun _ => Or.inr (by simp)⟩,
        fun n hn => by simp at hn⟩
    | some pr =>
      obtain ⟨n, rest⟩ := pr
      obtain ⟨a, b, c⟩ := pickName_spec _ _ _ _ hpick
      rw [h1] at a
      rw [h2] at b c
      have hne : n ≠ p := by
        rintro rfl
        rcases hs with hs | hs
        · rw [Option.isNone_iff_eq_none] at a
          rw [a] at hs
          exact Bool.noConfusion hs
        · exact hs b
      have hp : ¬ p = n := fun e => hne e.symm
      simp only
      refine ⟨⟨?_, ?_, ?_⟩, ?_⟩
      · simp only [hp, if_false]; rw [h1]
      · rw [renames_append_of_not_rename _ _ (by simp), h3]
      · intro _
        unfold Shielded at hs ⊢
        simp only [hp, if_false]
        rw [h1]
        rcases hs with hs | hs
        · exact Or.inl hs
        · exact Or.inr (fun hq => hs (c p hq))
      · intro m hm
        simp only [Except.ok.injEq] at hm
        rw [← hm]; exact hne


/-- The function `writeBinary` leaves a shielded path alone, and the name it
returns is empty or different from that path. -/
theorem writeBinary_frame (p dir : String) (r : Reader) (s : Sys) (hs : Shielded p s) :
    Frame p s (writeBinary dir r s).2 ∧
      ((writeBinary dir r s).1.1 = "" ∨ (writeBinary dir r s).1.1 ≠ p) := by
  obtain ⟨f0, n0⟩ := ioutilTempFile_frame p dir "syncthing" s hs
  unfold writeBinary
  cases h0 : ioutilTempFile dir "syncthing" s with
  | mk res s1 =>
    rw [h0] at f0 n0
    cases res with
    | error err => exact ⟨f0, Or.inl rfl⟩
    | ok name =>
      have hne : name ≠ p := n0 name rfl
      simp only
      have f1 := ioCopy_frame p name r s1 hne
      cases h1 : ioCopy name r s1 with
      | mk e1 s2 =>
        rw [h1] at f1
        cases e1 with
        | some err =>
          exact ⟨(f0.comp f1).comp (osRemove_frame p name s2 (Or.inr hne)), Or.inl rfl⟩
        | none =>
          simp only
          have f2 := fileClose_frame p name s2
          cases h2 : fileClose name s2 with
          | mk e2 s3 =>
            rw [h2] at f2
            cases e2 with
            | some err =>
              exact ⟨((f0.comp f1).comp f2).comp (osRemove_frame p name s3 (Or.inr hne)),
                Or.inl rfl⟩
            | none =>
              simp only
              have f3 := osChmod_frame p name 0o755 s3 hne
              cases h3 : osChmod name 0o755 s3 with
              | mk e3 s4 =>
                rw [h3] at f3
                cases e3 with
                | some err =>
                  exact ⟨(((f0.comp f1).comp f2).comp f3).comp
                    (osRemove_frame p name s4 (Or.inr hne)), Or.inl rfl⟩
                | none => exact ⟨((f0.comp f1).comp f2).comp f3, Or.inr hne⟩

theorem archiveFileVisitor_frame (p dir tempFile : String) (signature : Option Bytes)
    (filename : String) (filedata : Reader) (s : Sys) (hs : Shielded p s)
    (ht : tempFile = "" ∨ tempFile ≠ p) :
    Frame p s (archiveFileVisitor dir tempFile signature filename filedata s).2 ∧
      ((archiveFileVisitor dir tempFile signature filename filedata s).1.1 = "" ∨
        (archiveFileVisitor dir tempFile signature filename filedata s).1.1 ≠ p) := by
  unfold archiveFileVisitor
  split_ifs
  · obtain ⟨f, n⟩ := writeBinary_frame p dir filedata s hs
    cases hw : writeBinary dir filedata s with
    | mk res s1 =>
      rw [hw] at f n
      obtain ⟨name, err⟩ := res
      cases err <;> exact ⟨f, n⟩
  · cases hr : ioutilReadAll filedata with
    | mk data err =>
      cases err <;> exact ⟨Frame.rfl p s, ht⟩
  · exact ⟨Frame.rfl p s, ht⟩

theorem tarLoop_frame (p dir : String) (tailErr : Bool) :
    ∀ (entries : List Entry) (tempName : String) (sig : Option Bytes) (s : Sys),
      Shielded p s → (tempName = "" ∨ tempName ≠ p) →
      Frame p s (tarLoop dir tailErr entries tempName sig s).2 ∧
        ((tarLoop dir tailErr entries tempName sig s).1.1 = "" ∨
          (tarLoop dir tailErr entries tempName sig s).1.1 ≠ p)
  | [], tempName, sig, s, _, ht => by
    unfold tarLoop
    split_ifs
    · exact ⟨Frame.rfl p s, Or.inl rfl⟩
    · exact ⟨Frame.rfl p s, ht⟩
  | hdr :: rest, tempName, sig, s, hs, ht => by
    obtain ⟨f, n⟩ := archiveFileVisitor_frame p dir tempName sig (Base hdr.Name) hdr.body s hs ht
    unfold tarLoop
    simp only
    cases hv : archiveFileVisitor dir tempName sig (Base hdr.Name) hdr.body s with
    | mk res s1 =>
      rw [hv] at f n
      obtain ⟨t1, sig1, err⟩ := res
      cases err with
      | some e => exact ⟨f, Or.inl rfl⟩
      | none =>
        simp only
        split_ifs
        · exact ⟨f, n⟩
        · obtain ⟨f2, n2⟩ := tarLoop_frame p dir tailErr rest t1 sig1 s1 (f.2.2 hs) n
          exact ⟨f.comp f2, n2⟩

theorem zipLoop_frame (p dir : String) :
    ∀ (entries : List Entry) (tempName : String) (sig : Option Bytes) (s : Sys),
      Shielded p s → (tempName = "" ∨ tempName ≠ p) →
      Frame p s (zipLoop dir entries tempName sig s).2 ∧
        ((zipLoop dir entries tempName sig s).1.1 = "" ∨
          (zipLoop dir entries tempName sig s).1.1 ≠ p)
  | [], tempName, sig, s, _, ht => by
    unfold zipLoop
    exact ⟨Frame.rfl p s, ht⟩
  | file :: rest, tempName, sig, s, hs, ht => by
    obtain ⟨f, n⟩ :=
      archiveFileVisitor_frame p dir tempName sig (Base file.Name) file.body s hs ht
    unfold zipLoop
    simp only
    split_ifs
    · exact ⟨Frame.rfl p s, Or.inl rfl⟩
    · cases hv : archiveFileVisitor dir tempName sig (Base file.Name) file.body s with
      | mk res s1 =>
        rw [hv] at f n
        obtain ⟨t1, sig1, err⟩ := res
        cases err with
        | some e => exact ⟨f, Or.inl rfl⟩
        | none =>
          simp only
          split_ifs
          · exact ⟨f, n⟩
          · obtain ⟨f2, n2⟩ := zipLoop_frame p dir rest t1 sig1 s1 (f.2.2 hs) n
            exact ⟨f.comp f2, n2⟩

/-- Extraction leaves a shielded path alone, and the temp name it returns is
empty or different from that path. -/
theorem readRelease_frame (env : Env) (p dir url : String) (s : Sys) (hs : Shielded p s) :
    Frame p s (readRelease env dir url s).2 ∧
      ((readRelease env dir url s).1.1 = "" ∨ (readRelease env dir url s).1.1 ≠ p) := by
  unfold readRelease
  cases env.httpDo url with
  | error err => exact ⟨Frame.rfl p s, Or.inl rfl⟩
  | ok body =>
    simp only
    split_ifs
    · unfold readZip
      split_ifs
      · exact ⟨Frame.rfl p s, Or.inl rfl⟩
      · exact ⟨Frame.rfl p s, Or.inl rfl⟩
      · exact zipLoop_frame p dir body.entries "" none s hs (Or.inl rfl)
    · unfold readTarGz
      split_ifs
      · exact ⟨Frame.rfl p s, Or.inl rfl⟩
      · exact tarLoop_frame p dir body.tailErr body.entries "" none s hs (Or.inl rfl)

theorem osOpen_ok (name : String) (s : Sys) (fd : Bytes)
    (h : (osOpen name s).1 = .ok fd) :
    name ≠ "" ∧ ∃ fl, (osOpen name s).2.fs name = some fl ∧ fl.data = fd := by
  unfold osOpen at h ⊢
  simp only at h ⊢
  split_ifs at h ⊢ with hc
  have hn : name ≠ "" := fun e => hc (Or.inr e)
  cases hf : (nextFault s).2.fs name with
  | none => rw [hf] at h; simp at h
  | some fl =>
    rw [hf] at h
    simp only [Except.ok.injEq] at h
    exact ⟨hn, fl, by simp [hf], h⟩

/-- The function `verifyUpgrade` leaves a path alone that differs from the temp
name, and it returns `nil` only when `Verify` accepted the payload. -/
theorem verifyUpgrade_frame (env : Env) (p tempName : String) (sig : Option Bytes)
    (key : Bytes) (s : Sys) (ht : tempName = "" ∨ tempName ≠ p) :
    Frame p s (verifyUpgrade env tempName sig key s).2 ∧
      ((verifyUpgrade env tempName sig key s).1 = none →
        VerifySucceeds env key tempName sig s) := by
  unfold verifyUpgrade
  split_ifs with h0
  · exact ⟨Frame.rfl p s, fun h => by simp at h⟩
  · cases sig with
    | none => exact ⟨Frame.rfl p s, fun h => by simp at h⟩
    | some sigBytes =>
      simp only
      have fo := osOpen_frame p tempName s
      have ho := osOpen_ok tempName s
      have hfs : (osOpen tempName s).2.fs = s.fs := by
        unfold osOpen
        simp only
        have := (nextFault_frame p s).1
        split_ifs
        · exact this
        · cases (nextFault s).2.fs tempName <;> exact this
      cases hopen : osOpen tempName s with
      | mk res s1 =>
        rw [hopen] at fo ho hfs
        cases res with
        | error err => exact ⟨fo, fun h => by simp at h⟩
        | ok fd =>
          simp only
          obtain ⟨_, fl, hfl, hdata⟩ := ho fd rfl
          split_ifs with hv
          · refine ⟨fo, fun _ => ⟨h0, sigBytes, fl, rfl, ?_, ?_⟩⟩
            · rw [← hfs]; exact hfl
            · rw [hdata]; exact hv
          · exact ⟨fo.comp (osRemove_frame p tempName s1 ht), fun h => by simp at h⟩


/-! ## Claims about `compareVersions` -/

/-- C2: for all strings `a` and `b`, `compareVersions b a` is the negation of
`compareVersions a b`, both being one of the five relations -2, -1, 0, 1, 2; so
the two calls are exact inverses (newer and older swap, majorNewer and
majorOlder swap, equal stays equal). -/
theorem compareVersions_inverse (a b : String) :
    compareVersions b a = - compareVersions a b ∧
    (compareVersions a b = majorOlder ∨ compareVersions a b = older ∨
      compareVersions a b = equal ∨ compareVersions a b = newer ∨
      compareVersions a b = majorNewer) :=
  ⟨compareParts_swap _ _ _ _, compareParts_range _ _ _ _⟩

/-- C3: the table `versions` of `versions_test.go` has 29 rows, among them the
seven rows of the table in the specification, and every row `(a, b, r)`
satisfies `compareVersions a b = r`. -/
theorem compareVersions_table :
    versions.length = 29 ∧ (∀ row ∈ specTable, row ∈ versions) ∧
    ∀ row ∈ versions, compareVersions row.1 row.2.1 = row.2.2 := by
  decide

/-- C7, as stated, fails: with `s = "v1.0"` the string `"v" ++ s` is `"vv1.0"`, of
which only one `v` is stripped, so it parses as `0.0` and is a major step older
than `"1.0"`, whereas `s` itself equals `"1.0"`. -/
theorem compareVersions_double_v :
    compareVersions ("v" ++ "v1.0") "1.0" = majorOlder ∧
    compareVersions "v1.0" "1.0" = equal ∧
    ¬ (compareVersions ("v" ++ "v1.0") "1.0" = compareVersions "v1.0" "1.0") := by
  decide

/-- C7, amended: for every string `s` that does not itself begin with `v` or `V`
and every string `t`, putting a `v` or a `V` in front of `s` does not change
`compareVersions` against `t`; in particular `"v" ++ s`, `"V" ++ s` and `s`
compare as equal. -/
theorem compareVersions_strip_v (s t : String)
    (h : s.data.head? ≠ some 'v' ∧ s.data.head? ≠ some 'V') :
    compareVersions ("v" ++ s) t = compareVersions s t ∧
    compareVersions ("V" ++ s) t = compareVersions s t ∧
    compareVersions ("v" ++ s) s = equal ∧
    compareVersions ("v" ++ s) ("V" ++ s) = equal := by
  have hp := versionParts_strip_v s h
  refine ⟨?_, ?_, ?_, ?_⟩
  · unfold compareVersions; rw [hp.1]
  · unfold compareVersions; rw [hp.2]
  · have e : compareVersions ("v" ++ s) s = compareVersions s s := by
      unfold compareVersions; rw [hp.1]
    rw [e]; exact compareVersions_self s
  · have e : compareVersions ("v" ++ s) ("V" ++ s) = compareVersions s s := by
      unfold compareVersions; rw [hp.1, hp.2]
    rw [e]; exact compareVersions_self s

theorem compareVersions_strip_v_witness :
    ("1.1.2".data.head? ≠ some 'v' ∧ "1.1.2".data.head? ≠ some 'V') ∧
    (compareVersions ("v" ++ "1.1.2") "0.1.2" = compareVersions "1.1.2" "0.1.2" ∧
     compareVersions ("V" ++ "1.1.2") "0.1.2" = compareVersions "1.1.2" "0.1.2" ∧
     compareVersions ("v" ++ "1.1.2") "1.1.2" = equal ∧
     compareVersions ("v" ++ "1.1.2") ("V" ++ "1.1.2") = equal) :=
  ⟨by decide, compareVersions_strip_v "1.1.2" "0.1.2" (by decide)⟩

/-- C8: build metadata never affects comparison: for every string `s` without a
`+` and all strings `m1`, `m2`, `t`, the versions `s+m1`, `s+m2` and `s` give
the same `compareVersions` against `t`, whatever the metadata contains. -/
theorem compareVersions_build_metadata (s m1 m2 t : String) (h : '+' ∉ s.data) :
    compareVersions (s ++ "+" ++ m1) t = compareVersions (s ++ "+" ++ m2) t ∧
    compareVersions (s ++ "+" ++ m2) t = compareVersions s t := by
  have h1 := versionParts_build_metadata s m1 h
  have h2 := versionParts_build_metadata s m2 h
  constructor
  · unfold compareVersions; rw [h1, h2]
  · unfold compareVersions; rw [h2]

theorem compareVersions_build_metadata_witness :
    '+' ∉ "1.0.0".data ∧
    (compareVersions ("1.0.0" ++ "+" ++ "45") "1.0.1" =
        compareVersions ("1.0.0" ++ "+" ++ "23-dev-foo") "1.0.1" ∧
     compareVersions ("1.0.0" ++ "+" ++ "23-dev-foo") "1.0.1" =
        compareVersions "1.0.0" "1.0.1") :=
  ⟨by decide, compareVersions_build_metadata "1.0.0" "45" "23-dev-foo" "1.0.1" (by decide)⟩

/-- C9: when the release components of `a` and `b` first differ at an index `i`
below both lengths, `compareVersions a b` is majorNewer or majorOlder exactly
when `i = 0`, or `i = 1` and component 0 of both is 0; it is newer or older
exactly otherwise; it is on the newer side exactly when the component of `a`
at `i` is the greater one; and the prerelease tags play no part. -/
theorem compareVersions_first_difference (a b : String) (i : Nat)
    (hia : i < (versionParts a).1.length) (hib : i < (versionParts b).1.length)
    (hne : (versionParts a).1.getD i 0 ≠ (versionParts b).1.getD i 0)
    (heq : ∀ j, j < i → (versionParts a).1.getD j 0 = (versionParts b).1.getD j 0) :
    ((compareVersions a b = majorNewer ∨ compareVersions a b = majorOlder) ↔
      (i = 0 ∨ (i = 1 ∧ (versionParts a).1.getD 0 0 = 0 ∧
        (versionParts b).1.getD 0 0 = 0))) ∧
    ((compareVersions a b = newer ∨ compareVersions a b = older) ↔
      ¬ (i = 0 ∨ (i = 1 ∧ (versionParts a).1.getD 0 0 = 0 ∧
        (versionParts b).1.getD 0 0 = 0))) ∧
    ((compareVersions a b = newer ∨ compareVersions a b = majorNewer) ↔
      (versionParts a).1.getD i 0 > (versionParts b).1.getD i 0) ∧
    (∀ apre bpre : List PreId,
      compareParts (versionParts a).1 apre (versionParts b).1 bpre = compareVersions a b) := by
  have hloop := releaseLoop_first_diff ((versionParts a).1.headD 0) i
    (versionParts a).1 (versionParts b).1 0 hia hib hne heq
  have hhead : (versionParts a).1.headD 0 = (versionParts a).1.getD 0 0 := by
    cases (versionParts a).1 <;> rfl
  have hzero : i = 1 → (versionParts a).1.getD 0 0 = (versionParts b).1.getD 0 0 :=
    fun h => heq 0 (by omega)
  rw [hhead] at hloop
  have hval : ∀ apre bpre : List PreId,
      compareParts (versionParts a).1 apre (versionParts b).1 bpre =
        (if (versionParts a).1.getD i 0 < (versionParts b).1.getD i 0 then
          (if 0 + i = 0 ∨ (0 + i = 1 ∧ (versionParts a).1.getD 0 0 = 0) then majorOlder
            else older)
        else
          (if 0 + i = 0 ∨ (0 + i = 1 ∧ (versionParts a).1.getD 0 0 = 0) then majorNewer
            else newer)) := by
    intro apre bpre
    unfold compareParts
    rw [hhead, hloop]
  have hcv := hval (versionParts a).2 (versionParts b).2
  have hfacts := relation_at_difference _ _ _ _ i hne hzero _ hcv
  exact ⟨hfacts.1, hfacts.2.1, hfacts.2.2, fun apre bpre => (hval apre bpre).trans hcv.symm⟩

theorem compareVersions_first_difference_witness :
    (1 < (versionParts "0.3.1-rc").1.length ∧ 1 < (versionParts "0.1.2").1.length ∧
      (versionParts "0.3.1-rc").1.getD 1 0 ≠ (versionParts "0.1.2").1.getD 1 0 ∧
      (∀ j, j < 1 → (versionParts "0.3.1-rc").1.getD j 0 = (versionParts "0.1.2").1.getD j 0)) ∧
    (((compareVersions "0.3.1-rc" "0.1.2" = majorNewer ∨
        compareVersions "0.3.1-rc" "0.1.2" = majorOlder) ↔
      (1 = 0 ∨ (1 = 1 ∧ (versionParts "0.3.1-rc").1.getD 0 0 = 0 ∧
        (versionParts "0.1.2").1.getD 0 0 = 0))) ∧
    ((compareVersions "0.3.1-rc" "0.1.2" = newer ∨
        compareVersions "0.3.1-rc" "0.1.2" = older) ↔
      ¬ (1 = 0 ∨ (1 = 1 ∧ (versionParts "0.3.1-rc").1.getD 0 0 = 0 ∧
        (versionParts "0.1.2").1.getD 0 0 = 0))) ∧
    ((compareVersions "0.3.1-rc" "0.1.2" = newer ∨
        compareVersions "0.3.1-rc" "0.1.2" = majorNewer) ↔
      (versionParts "0.3.1-rc").1.getD 1 0 > (versionParts "0.1.2").1.getD 1 0) ∧
    (∀ apre bpre : List PreId,
      compareParts (versionParts "0.3.1-rc").1 apre (versionParts "0.1.2").1 bpre =
        compareVersions "0.3.1-rc" "0.1.2")) :=
  ⟨⟨by decide, by decide, by decide, by decide⟩,
   compareVersions_first_difference "0.3.1-rc" "0.1.2" 1 (by decide) (by decide) (by decide)
    (by decide)⟩

/-- C10: when `a` and `b` have identical release components, `a` has no
prerelease tag and `b` has one, `compareVersions a b` is newer and
`compareVersions b a` is older: a release is newer than any prerelease of the
same base version, and never by a major step. -/
theorem compareVersions_release_over_prerelease (a b : String)
    (hrel : (versionParts a).1 = (versionParts b).1)
    (ha : (versionParts a).2 = []) (hb : (versionParts b).2 ≠ []) :
    compareVersions a b = newer ∧ compareVersions b a = older := by
  have hlen : 0 < (versionParts b).2.length := List.length_pos.mpr hb
  have h1 : compareVersions a b = newer := by
    unfold compareVersions compareParts
    rw [hrel, releaseLoop_self, ha]
    simp [hlen]
  refine ⟨h1, ?_⟩
  rw [compareVersions_swap a b, h1]

theorem compareVersions_release_over_prerelease_witness :
    ((versionParts "1.0.0").1 = (versionParts "1.0.0-rc.1").1 ∧
      (versionParts "1.0.0").2 = [] ∧ (versionParts "1.0.0-rc.1").2 ≠ []) ∧
    (compareVersions "1.0.0" "1.0.0-rc.1" = newer ∧
      compareVersions "1.0.0-rc.1" "1.0.0" = older) :=
  ⟨⟨by decide, by decide, by decide⟩,
   compareVersions_release_over_prerelease "1.0.0" "1.0.0-rc.1" (by decide) (by decide)
    (by decide)⟩


/-! ## Claims about `GithubReleases` -/

/-- C4: on a decoded catalog `GithubReleases` returns no error; every release it
returns is an eligible catalog entry, with `Version` its tag and `Assets` its
assets; when at most 5 entries are eligible the result is a permutation of all
eligible entries, so each of them is returned; and for the catalog `2.0.0`,
`1.5.0-beta` (prerelease), `1.4.0` with current version `1.3.0` and both flags
false the result is exactly `[1.4.0]`. -/
theorem GithubReleases_eligible (sortFn : List Release → List Release)
    (httpGet : String → Except String Response) (project currentVersion : String)
    (allowMajorUpgrade allowPrerelease : Bool) (catalog : List ghRel)
    (hsort : SortContract sortFn) (hresp : Delivers httpGet project catalog) :
    (GithubReleases sortFn httpGet project currentVersion allowMajorUpgrade
        allowPrerelease).2 = none ∧
    (∀ r ∈ (GithubReleases sortFn httpGet project currentVersion allowMajorUpgrade
        allowPrerelease).1,
      ∃ e ∈ catalog, eligible currentVersion allowMajorUpgrade allowPrerelease e = true ∧
        r.Version = e.Tag ∧ r.Assets = e.Assets) ∧
    ((catalog.filter (eligible currentVersion allowMajorUpgrade allowPrerelease)).length ≤ 5 →
      (GithubReleases sortFn httpGet project currentVersion allowMajorUpgrade
          allowPrerelease).1.Perm
        ((catalog.filter (eligible currentVersion allowMajorUpgrade allowPrerelease)).map
          toRelease) ∧
      ∀ e ∈ catalog, eligible currentVersion allowMajorUpgrade allowPrerelease e = true →
        toRelease e ∈ (GithubReleases sortFn httpGet project currentVersion
          allowMajorUpgrade allowPrerelease).1) ∧
    (∀ a1 a2 a3 : List Asset,
      catalog = [{ Tag := "2.0.0", Prerelease := false, Assets := a1 },
                 { Tag := "1.5.0-beta", Prerelease := true, Assets := a2 },
                 { Tag := "1.4.0", Prerelease := false, Assets := a3 }] →
      currentVersion = "1.3.0" → allowMajorUpgrade = false → allowPrerelease = false →
      (GithubReleases sortFn httpGet project currentVersion allowMajorUpgrade
          allowPrerelease).1 = [{ Version := "1.4.0", Assets := a3 }]) := by
  rw [GithubReleases_eq sortFn httpGet project currentVersion allowMajorUpgrade
    allowPrerelease catalog hresp]
  have hperm := (hsort ((catalog.filter
    (eligible currentVersion allowMajorUpgrade allowPrerelease)).map toRelease)).1
  refine ⟨rfl, ?_, ?_, ?_⟩
  · intro r hr
    have hr2 := hperm.subset (List.mem_of_mem_take hr)
    obtain ⟨e, he, rfl⟩ := List.mem_map.mp hr2
    rw [List.mem_filter] at he
    exact ⟨e, he.1, he.2, rfl, rfl⟩
  · intro hlen
    have hl : (sortFn ((catalog.filter
        (eligible currentVersion allowMajorUpgrade allowPrerelease)).map toRelease)).length
          ≤ maxReleases := by
      rw [hperm.length_eq, List.length_map]
      exact hlen
    simp only [List.take_of_length_le hl]
    refine ⟨hperm, fun e he hel => ?_⟩
    exact hperm.symm.subset (List.mem_map.mpr ⟨e, List.mem_filter.mpr ⟨he, hel⟩, rfl⟩)
  · intro a1 a2 a3 hcat hcur hmaj hpre
    subst hcat hcur hmaj hpre
    have c1 : compareVersions "2.0.0" "1.3.0" = 2 := by decide
    have c3 : compareVersions "1.4.0" "1.3.0" = 1 := by decide
    have e1 : eligible "1.3.0" false false
        { Tag := "2.0.0", Prerelease := false, Assets := a1 } = false := by
      simp [eligible, c1]
    have e2 : eligible "1.3.0" false false
        { Tag := "1.5.0-beta", Prerelease := true, Assets := a2 } = false := by
      simp [eligible]
    have e3 : eligible "1.3.0" false false
        { Tag := "1.4.0", Prerelease := false, Assets := a3 } = true := by
      simp [eligible, c3]
    have hf : ([{ Tag := "2.0.0", Prerelease := false, Assets := a1 },
                { Tag := "1.5.0-beta", Prerelease := true, Assets := a2 },
                { Tag := "1.4.0", Prerelease := false, Assets := a3 }] : List ghRel).filter
          (eligible "1.3.0" false false) =
        [{ Tag := "1.4.0", Prerelease := false, Assets := a3 }] := by
      simp [List.filter, e1, e2, e3]
    rw [hf] at hperm ⊢
    simp only [List.map, toRelease] at hperm ⊢
    rw [List.perm_singleton.mp hperm]
    rfl

theorem GithubReleases_eligible_witness :
    (SortContract insertionSortByRelease ∧
      Delivers (serve specCatalog) "calmh/someproject" specCatalog) ∧
    ((GithubReleases insertionSortByRelease (serve specCatalog) "calmh/someproject" "1.3.0" false false).2 = none ∧
     (∀ r ∈ (GithubReleases insertionSortByRelease (serve specCatalog) "calmh/someproject" "1.3.0" false false).1,
       ∃ e ∈ specCatalog, eligible "1.3.0" false false e = true ∧
         r.Version = e.Tag ∧ r.Assets = e.Assets) ∧
     ((specCatalog.filter (eligible "1.3.0" false false)).length ≤ 5 →
       (GithubReleases insertionSortByRelease (serve specCatalog) "calmh/someproject" "1.3.0" false false).1.Perm ((specCatalog.filter (eligible "1.3.0" false false)).map toRelease) ∧
       ∀ e ∈ specCatalog, eligible "1.3.0" false false e = true →
         toRelease e ∈ (GithubReleases insertionSortByRelease (serve specCatalog) "calmh/someproject" "1.3.0" false false).1) ∧
     (∀ a1 a2 a3 : List Asset,
       specCatalog = [{ Tag := "2.0.0", Prerelease := false, Assets := a1 },
                      { Tag := "1.5.0-beta", Prerelease := true, Assets := a2 },
                      { Tag := "1.4.0", Prerelease := false, Assets := a3 }] →
       "1.3.0" = "1.3.0" → false = false → false = false →
       (GithubReleases insertionSortByRelease (serve specCatalog) "calmh/someproject" "1.3.0" false false).1 = [{ Version := "1.4.0", Assets := a3 }])) :=
  ⟨⟨insertionSort_contract, serve_delivers _ _⟩,
   GithubReleases_eligible insertionSortByRelease (serve specCatalog) "calmh/someproject"
     "1.3.0" false false specCatalog insertionSort_contract (serve_delivers _ _)⟩

/-- C5, as stated, fails: the catalog with the tags `1.4.0` and `v1.4.0` and
current version `1.3.0` yields both releases, and they compare as equal, so
the result is not strictly descending, whichever sorting function meets the
contract of `sort.Sort`. -/
theorem GithubReleases_tie :
    (GithubReleases insertionSortByRelease (serve tieCatalog) "calmh/someproject" "1.3.0"
      false false).1 =
      [{ Version := "1.4.0", Assets := [] }, { Version := "v1.4.0", Assets := [] }] ∧
    compareVersions "1.4.0" "v1.4.0" = equal ∧
    ¬ (compareVersions "1.4.0" "v1.4.0" = newer ∨
       compareVersions "1.4.0" "v1.4.0" = majorNewer) ∧
    ¬ (∀ sortFn : List Release → List Release, SortContract sortFn →
        ∀ (i j : Nat) (x y : Release), i < j →
          (GithubReleases sortFn (serve tieCatalog) "calmh/someproject" "1.3.0" false false).1[i]? = some x →
          (GithubReleases sortFn (serve tieCatalog) "calmh/someproject" "1.3.0" false false).1[j]? = some y →
          (compareVersions x.Version y.Version = newer ∨
           compareVersions x.Version y.Version = majorNewer)) := by
  refine ⟨by decide, by decide, by decide, fun h => ?_⟩
  have h01 := h insertionSortByRelease insertionSort_contract 0 1
    { Version := "1.4.0", Assets := [] } { Version := "v1.4.0", Assets := [] }
    (by decide) (by decide) (by decide)
  revert h01
  decide

/-- C5, amended: the list returned by `GithubReleases` is sorted descending by
version: for all positions `i < j` the release at `i` compares as equal, newer
or majorNewer to the one at `j`; and as newer or majorNewer when no two
eligible entries of the catalog compare as equal. -/
theorem GithubReleases_descending (sortFn : List Release → List Release)
    (httpGet : String → Except String Response) (project currentVersion : String)
    (allowMajorUpgrade allowPrerelease : Bool) (catalog : List ghRel)
    (hsort : SortContract sortFn) (hresp : Delivers httpGet project catalog) :
    (∀ (i j : Nat) (x y : Release), i < j →
      (GithubReleases sortFn httpGet project currentVersion allowMajorUpgrade
        allowPrerelease).1[i]? = some x →
      (GithubReleases sortFn httpGet project currentVersion allowMajorUpgrade
        allowPrerelease).1[j]? = some y →
      (compareVersions x.Version y.Version = equal ∨
       compareVersions x.Version y.Version = newer ∨
       compareVersions x.Version y.Version = majorNewer)) ∧
    ((catalog.filter (eligible currentVersion allowMajorUpgrade allowPrerelease)).Pairwise
        (fun e f => compareVersions e.Tag f.Tag ≠ equal) →
      ∀ (i j : Nat) (x y : Release), i < j →
        (GithubReleases sortFn httpGet project currentVersion allowMajorUpgrade
          allowPrerelease).1[i]? = some x →
        (GithubReleases sortFn httpGet project currentVersion allowMajorUpgrade
          allowPrerelease).1[j]? = some y →
        (compareVersions x.Version y.Version = newer ∨
         compareVersions x.Version y.Version = majorNewer)) := by
  rw [GithubReleases_eq sortFn httpGet project currentVersion allowMajorUpgrade
    allowPrerelease catalog hresp]
  obtain ⟨hperm, hsorted⟩ := hsort ((catalog.filter
    (eligible currentVersion allowMajorUpgrade allowPrerelease)).map toRelease)
  have htake := hsorted.sublist (List.take_sublist maxReleases _)
  have hge : ∀ (i j : Nat) (x y : Release), i < j →
      ((sortFn ((catalog.filter (eligible currentVersion allowMajorUpgrade
        allowPrerelease)).map toRelease)).take maxReleases)[i]? = some x →
      ((sortFn ((catalog.filter (eligible currentVersion allowMajorUpgrade
        allowPrerelease)).map toRelease)).take maxReleases)[j]? = some y →
      (0 : Int) ≤ compareVersions x.Version y.Version := by
    intro i j x y hij hx hy
    exact (Less_false_iff x y).mp (pairwise_getElem? htake i j x y hij hx hy)
  have hcases : ∀ a b : String, (0 : Int) ≤ compareVersions a b →
      compareVersions a b = equal ∨ compareVersions a b = newer ∨
        compareVersions a b = majorNewer := by
    intro a b h
    rcases lt_or_eq_of_le h with h | h
    · exact Or.inr ((compareVersions_pos_iff a b).mp h)
    · exact Or.inl h.symm
  refine ⟨fun i j x y hij hx hy => hcases _ _ (hge i j x y hij hx hy), ?_⟩
  intro hne i j x y hij hx hy
  have hne1 : ((catalog.filter (eligible currentVersion allowMajorUpgrade
      allowPrerelease)).map toRelease).Pairwise
      (fun x y => compareVersions x.Version y.Version ≠ equal) := by
    rw [List.pairwise_map]
    exact hne
  have hsymm : Symmetric (fun x y : Release => compareVersions x.Version y.Version ≠ equal) := by
    intro x y h e
    apply h
    rw [compareVersions_swap y.Version x.Version, e]
    rfl
  have hne2 := (hperm.symm.pairwise hne1 (fun h => hsymm h)).sublist (List.take_sublist maxReleases _)
  have hxy := pairwise_getElem? hne2 i j x y hij hx hy
  rcases hcases _ _ (hge i j x y hij hx hy) with h | h
  · exact absurd h hxy
  · exact h

theorem GithubReleases_descending_witness :
    (SortContract insertionSortByRelease ∧
      Delivers (serve tieCatalog) "calmh/someproject" tieCatalog) ∧
    ((∀ (i j : Nat) (x y : Release), i < j →
      (GithubReleases insertionSortByRelease (serve tieCatalog) "calmh/someproject" "1.3.0" false false).1[i]? = some x →
      (GithubReleases insertionSortByRelease (serve tieCatalog) "calmh/someproject" "1.3.0" false false).1[j]? = some y →
      (compareVersions x.Version y.Version = equal ∨
       compareVersions x.Version y.Version = newer ∨
       compareVersions x.Version y.Version = majorNewer)) ∧
    ((tieCatalog.filter (eligible "1.3.0" false false)).Pairwise
        (fun e f => compareVersions e.Tag f.Tag ≠ equal) →
      ∀ (i j : Nat) (x y : Release), i < j →
        (GithubReleases insertionSortByRelease (serve tieCatalog) "calmh/someproject" "1.3.0" false false).1[i]? = some x →
        (GithubReleases insertionSortByRelease (serve tieCatalog) "calmh/someproject" "1.3.0" false false).1[j]? = some y →
        (compareVersions x.Version y.Version = newer ∨
         compareVersions x.Version y.Version = majorNewer))) :=
  ⟨⟨insertionSort_contract, serve_delivers _ _⟩,
   GithubReleases_descending insertionSortByRelease (serve tieCatalog) "calmh/someproject"
     "1.3.0" false false tieCatalog insertionSort_contract (serve_delivers _ _)⟩

/-- C6: the list returned by `GithubReleases` has length the minimum of 5 and the
number of eligible entries, so never more than 5; and the eligible releases
left out of it are not strictly newer than any returned release: the result
followed by some list `rest` is a permutation of all eligible releases, and no
element of `rest` compares greater than zero against an element of the
result. -/
theorem GithubReleases_newest_five (sortFn : List Release → List Release)
    (httpGet : String → Except String Response) (project currentVersion : String)
    (allowMajorUpgrade allowPrerelease : Bool) (catalog : List ghRel)
    (hsort : SortContract sortFn) (hresp : Delivers httpGet project catalog) :
    (GithubReleases sortFn httpGet project currentVersion allowMajorUpgrade
        allowPrerelease).1.length =
      min 5 (catalog.filter (eligible currentVersion allowMajorUpgrade
        allowPrerelease)).length ∧
    (GithubReleases sortFn httpGet project currentVersion allowMajorUpgrade
        allowPrerelease).1.length ≤ 5 ∧
    ∃ rest : List Release,
      ((GithubReleases sortFn httpGet project currentVersion allowMajorUpgrade
          allowPrerelease).1 ++ rest).Perm
        ((catalog.filter (eligible currentVersion allowMajorUpgrade allowPrerelease)).map
          toRelease) ∧
      ∀ y ∈ rest, ∀ x ∈ (GithubReleases sortFn httpGet project currentVersion
          allowMajorUpgrade allowPrerelease).1,
        ¬ ((0 : Int) < compareVersions y.Version x.Version) := by
  rw [GithubReleases_eq sortFn httpGet project currentVersion allowMajorUpgrade
    allowPrerelease catalog hresp]
  obtain ⟨hperm, hsorted⟩ := hsort ((catalog.filter
    (eligible currentVersion allowMajorUpgrade allowPrerelease)).map toRelease)
  refine ⟨?_, ?_, (sortFn ((catalog.filter (eligible currentVersion allowMajorUpgrade
    allowPrerelease)).map toRelease)).drop maxReleases, ?_, ?_⟩
  · simp only [List.length_take, hperm.length_eq, List.length_map, maxReleases]
  · simp only [List.length_take, maxReleases]
    exact Nat.min_le_left _ _
  · simp only [List.take_append_drop]
    exact hperm
  · intro y hy x hx
    rw [← List.take_append_drop maxReleases (sortFn _), List.pairwise_append] at hsorted
    have h := hsorted.2.2 x hx y hy
    unfold sortByRelease.Less at h
    exact of_decide_eq_false h

theorem GithubReleases_newest_five_witness :
    (SortContract insertionSortByRelease ∧
      Delivers (serve longCatalog) "calmh/someproject" longCatalog) ∧
    ((GithubReleases insertionSortByRelease (serve longCatalog) "calmh/someproject" "1.3.0" false false).1.length = min 5 (longCatalog.filter (eligible "1.3.0" false false)).length ∧
     (GithubReleases insertionSortByRelease (serve longCatalog) "calmh/someproject" "1.3.0" false false).1.length ≤ 5 ∧
     ∃ rest : List Release,
       ((GithubReleases insertionSortByRelease (serve longCatalog) "calmh/someproject" "1.3.0" false false).1 ++ rest).Perm
         ((longCatalog.filter (eligible "1.3.0" false false)).map toRelease) ∧
       ∀ y ∈ rest, ∀ x ∈ (GithubReleases insertionSortByRelease (serve longCatalog) "calmh/someproject" "1.3.0" false false).1,
         ¬ ((0 : Int) < compareVersions y.Version x.Version)) :=
  ⟨⟨insertionSort_contract, serve_delivers _ _⟩,
   GithubReleases_newest_five insertionSortByRelease (serve longCatalog) "calmh/someproject"
     "1.3.0" false false longCatalog insertionSort_contract (serve_delivers _ _)⟩


/-! ## Claims about `upgradeToURL` -/

/-- C1: in every run of `upgradeToURL` from a state in which `binary` and
`binary.old` are out of reach of `ioutil.TempFile`: unless extraction returned
no error and `Verify` succeeded on the extracted payload, the call returns an
error, performs no rename, and leaves the files at `binary` and at
`binary.old` as they were; an empty temp path, a `nil` signature and a
rejecting `Verify` are such cases; hence a rename, or a change of the file at
`binary` or `binary.old`, happens only after `Verify` has succeeded on the
extracted payload. -/
theorem upgradeToURL_verification_gate (env : Env) (binary url : String) (key : Bytes)
    (s : Sys) (hbin : Shielded binary s) (hold : Shielded (binary ++ ".old") s) :
    (¬ ((readRelease env (env.Dir binary) url s).1.2.2 = none ∧
        VerifySucceeds env key (readRelease env (env.Dir binary) url s).1.1
          (readRelease env (env.Dir binary) url s).1.2.1
          (readRelease env (env.Dir binary) url s).2) →
      (upgradeToURL env binary url key s).1 ≠ none ∧
      renames (upgradeToURL env binary url key s).2.log = renames s.log ∧
      (upgradeToURL env binary url key s).2.fs binary = s.fs binary ∧
      (upgradeToURL env binary url key s).2.fs (binary ++ ".old") =
        s.fs (binary ++ ".old")) ∧
    (((readRelease env (env.Dir binary) url s).1.1 = "" ∨
      (readRelease env (env.Dir binary) url s).1.2.1 = none ∨
      (∃ sigBytes fl, (readRelease env (env.Dir binary) url s).1.2.1 = some sigBytes ∧
        (readRelease env (env.Dir binary) url s).2.fs
          (readRelease env (env.Dir binary) url s).1.1 = some fl ∧
        env.Verify key sigBytes fl.data = false)) →
      ¬ VerifySucceeds env key (readRelease env (env.Dir binary) url s).1.1
          (readRelease env (env.Dir binary) url s).1.2.1
          (readRelease env (env.Dir binary) url s).2) ∧
    ((renames (upgradeToURL env binary url key s).2.log ≠ renames s.log ∨
      (upgradeToURL env binary url key s).2.fs binary ≠ s.fs binary ∨
      (upgradeToURL env binary url key s).2.fs (binary ++ ".old") ≠
        s.fs (binary ++ ".old")) →
      (readRelease env (env.Dir binary) url s).1.2.2 = none ∧
      VerifySucceeds env key (readRelease env (env.Dir binary) url s).1.1
        (readRelease env (env.Dir binary) url s).1.2.1
        (readRelease env (env.Dir binary) url s).2) := by
  have main : ¬ ((readRelease env (env.Dir binary) url s).1.2.2 = none ∧
        VerifySucceeds env key (readRelease env (env.Dir binary) url s).1.1
          (readRelease env (env.Dir binary) url s).1.2.1
          (readRelease env (env.Dir binary) url s).2) →
      (upgradeToURL env binary url key s).1 ≠ none ∧
      renames (upgradeToURL env binary url key s).2.log = renames s.log ∧
      (upgradeToURL env binary url key s).2.fs binary = s.fs binary ∧
      (upgradeToURL env binary url key s).2.fs (binary ++ ".old") =
        s.fs (binary ++ ".old") := by
    obtain ⟨fb, nb⟩ := readRelease_frame env binary (env.Dir binary) url s hbin
    obtain ⟨fo, no⟩ := readRelease_frame env (binary ++ ".old") (env.Dir binary) url s hold
    unfold upgradeToURL
    cases hr : readRelease env (env.Dir binary) url s with
    | mk res s1 =>
      rw [hr] at fb nb fo no
      obtain ⟨fname, sig, err⟩ := res
      cases err with
      | some e =>
        intro _
        exact ⟨by simp, fb.2.1, fb.1, fo.1⟩
      | none =>
        simp only
        obtain ⟨vb, vok⟩ := verifyUpgrade_frame env binary fname sig key s1 nb
        obtain ⟨vo, _⟩ := verifyUpgrade_frame env (binary ++ ".old") fname sig key s1 no
        cases hv : verifyUpgrade env fname sig key s1 with
        | mk verr s2 =>
          rw [hv] at vb vo vok
          cases verr with
          | none =>
            intro hnot
            exact absurd ⟨by first | rfl | trivial, vok rfl⟩ hnot
          | some e =>
            intro _
            have rb := osRemove_frame binary fname s2 nb
            have ro := osRemove_frame (binary ++ ".old") fname s2 no
            exact ⟨by simp, ((fb.comp vb).comp rb).2.1, ((fb.comp vb).comp rb).1,
              ((fo.comp vo).comp ro).1⟩
  refine ⟨main, ?_, ?_⟩
  · rintro (h | h | ⟨sigBytes, fl, h1, h2, h3⟩) ⟨hne, sb, fl2, e1, e2, e3⟩
    · exact hne h
    · rw [h] at e1; exact Option.noConfusion e1
    · rw [h1] at e1
      rw [h2] at e2
      simp only [Option.some.injEq] at e1 e2
      subst e1 e2
      rw [h3] at e3
      exact Bool.noConfusion e3
  · intro hchg
    by_contra hnot
    obtain ⟨_, h1, h2, h3⟩ := main hnot
    rcases hchg with h | h | h
    · exact h h1
    · exact h h2
    · exact h h3

theorem upgradeToURL_verification_gate_witness :
    (Shielded "/bin/syncthing" sampleSys ∧ Shielded ("/bin/syncthing" ++ ".old") sampleSys) ∧
    ((upgradeToURL (sampleEnv false) "/bin/syncthing" "https://h/a" [] sampleSys).1 ≠ none ∧
      renames (upgradeToURL (sampleEnv false) "/bin/syncthing" "https://h/a" [] sampleSys).2.log
        = renames sampleSys.log ∧
      (upgradeToURL (sampleEnv false) "/bin/syncthing" "https://h/a" [] sampleSys).2.fs
        "/bin/syncthing" = sampleSys.fs "/bin/syncthing" ∧
      (upgradeToURL (sampleEnv false) "/bin/syncthing" "https://h/a" [] sampleSys).2.fs
        ("/bin/syncthing" ++ ".old") = sampleSys.fs ("/bin/syncthing" ++ ".old")) :=
  ⟨⟨Or.inl (by decide), Or.inr (by decide)⟩,
   (upgradeToURL_verification_gate (sampleEnv false) "/bin/syncthing" "https://h/a" []
      sampleSys (Or.inl (by decide)) (Or.inr (by decide))).1
      (fun h => by
        obtain ⟨_, _, _, _, _, _, hv⟩ := h
        exact Bool.noConfusion hv)⟩


/-! ## Further claims about `compareVersions` -/

theorem releaseLoop_append_left (a0 : Int) (ext : List Int) :
    ∀ (xs : List Int) (i : Nat), releaseLoop a0 i (xs ++ ext) xs = none
  | [], _ => by cases ext <;> simp [releaseLoop]
  | x :: xs, i => by
    simp only [List.cons_append, releaseLoop, lt_irrefl, gt_iff_lt, if_false]
    exact releaseLoop_append_left a0 ext xs (i + 1)

theorem releaseLoop_append_right (a0 : Int) (ext : List Int) :
    ∀ (xs : List Int) (i : Nat), releaseLoop a0 i xs (xs ++ ext) = none
  | [], _ => by cases ext <;> simp [releaseLoop]
  | x :: xs, i => by
    simp only [List.cons_append, releaseLoop, lt_irrefl, gt_iff_lt, if_false]
    exact releaseLoop_append_right a0 ext xs (i + 1)

theorem lexSign_append_right {α : Type} (lt : α → α → Bool) (hirr : ∀ a, lt a a = false)
    (ext : List α) (hext : ext ≠ []) :
    ∀ xs : List α, lexSign lt xs (xs ++ ext) = -1
  | [] => by
    cases ext with
    | nil => exact absurd rfl hext
    | cons e es => simp [lexSign]
  | x :: xs => by
    simp only [List.cons_append, lexSign, hirr x, Bool.false_eq_true, if_false]
    exact lexSign_append_right lt hirr ext hext xs

/-- With equal release components and prerelease identifiers on both sides,
`compareParts` is the lexicographic comparison of the identifiers. -/
theorem compareParts_prerelease (rel : List Int) (apre bpre : List PreId)
    (ha : apre ≠ []) (hb : bpre ≠ []) :
    compareParts rel apre rel bpre = lexSign preLess apre bpre := by
  have hla : 0 < apre.length := List.length_pos.mpr ha
  have hlb : 0 < bpre.length := List.length_pos.mpr hb
  unfold compareParts
  rw [releaseLoop_self]
  simp only [lt_irrefl, gt_iff_lt, if_false]
  rw [if_neg (by omega), if_neg (by omega)]
  cases h : prereleaseLoop apre bpre with
  | some r =>
    simp only
    have hr := prereleaseLoop_range _ _ _ h
    rcases prereleaseLoop_some_sign _ _ _ h with ⟨hp, hs⟩ | ⟨hn, hs⟩
    · rw [hs]
      rcases hr with e | e
      · rw [e] at hp; exact absurd hp (by norm_num)
      · exact e
    · rw [hs]
      rcases hr with e | e
      · exact e
      · rw [e] at hn; exact absurd hn (by norm_num)
  | none =>
    simp only
    rw [prereleaseLoop_none_sign _ _ h]

/-- C11: when `a` and `b` have identical release components and both carry a
prerelease tag, `compareVersions a b` is older, equal or newer as the
lexicographic comparison `lexSign preLess` of their prerelease identifiers is
-1, 0 or 1; in that order two integers compare numerically, two strings
bytewise, an integer is below a string, and a sequence that is a strict
beginning of the other is the older one. -/
theorem compareVersions_prerelease (a b : String)
    (hrel : (versionParts a).1 = (versionParts b).1)
    (ha : (versionParts a).2 ≠ []) (hb : (versionParts b).2 ≠ []) :
    compareVersions a b = lexSign preLess (versionParts a).2 (versionParts b).2 ∧
    (compareVersions a b = older ∨ compareVersions a b = equal ∨
      compareVersions a b = newer) ∧
    (∀ x y : Int, preLess (PreId.int x) (PreId.int y) = decide (x < y)) ∧
    (∀ s t : List Char, preLess (PreId.str s) (PreId.str t) = strLess s t) ∧
    (∀ (x : Int) (s : List Char),
      preLess (PreId.int x) (PreId.str s) = true ∧
      preLess (PreId.str s) (PreId.int x) = false) ∧
    (∀ ext : List PreId, ext ≠ [] →
      (versionParts b).2 = (versionParts a).2 ++ ext → compareVersions a b = older) ∧
    (∀ ext : List PreId, ext ≠ [] →
      (versionParts a).2 = (versionParts b).2 ++ ext → compareVersions a b = newer) := by
  have hcv : compareVersions a b = lexSign preLess (versionParts a).2 (versionParts b).2 := by
    unfold compareVersions
    rw [hrel]
    exact compareParts_prerelease _ _ _ ha hb
  refine ⟨hcv, ?_, fun _ _ => rfl, fun _ _ => rfl, fun _ _ => ⟨rfl, rfl⟩, ?_, ?_⟩
  · rw [hcv]
    exact lexSign_range preLess _ _
  · intro ext hext hb2
    rw [hcv, hb2]
    exact lexSign_append_right preLess preLess_irrefl ext hext _
  · intro ext hext ha2
    rw [hcv, ha2, lexSign_swap preLess preLess_asymm,
      lexSign_append_right preLess preLess_irrefl ext hext]
    rfl

theorem compareVersions_prerelease_witness :
    ((versionParts "1.0.0-beta.2").1 = (versionParts "1.0.0-beta.11").1 ∧
      (versionParts "1.0.0-beta.2").2 ≠ [] ∧ (versionParts "1.0.0-beta.11").2 ≠ []) ∧
    compareVersions "1.0.0-beta.2" "1.0.0-beta.11" =
      lexSign preLess (versionParts "1.0.0-beta.2").2 (versionParts "1.0.0-beta.11").2 ∧
    compareVersions "1.0.0-beta.2" "1.0.0-beta.11" = older :=
  ⟨⟨by decide, by decide, by decide⟩,
   (compareVersions_prerelease "1.0.0-beta.2" "1.0.0-beta.11" (by decide) (by decide)
      (by decide)).1,
   by decide⟩

/-- C17: when the release components of one version are those of the other
followed by at least one more component, the version with the longer release
sequence is newer: `compareVersions a b` is newer when `a` is the longer one
and older when `b` is, whatever the prerelease tags; so `1.2.3.1` is newer
than `1.2.3`. -/
theorem compareVersions_longer_release (a b : String) (ext : List Int) (hext : ext ≠ []) :
    ((versionParts a).1 = (versionParts b).1 ++ ext → compareVersions a b = newer) ∧
    ((versionParts b).1 = (versionParts a).1 ++ ext → compareVersions a b = older) ∧
    compareVersions "1.2.3.1" "1.2.3" = newer := by
  have hlen : 0 < ext.length := List.length_pos.mpr hext
  refine ⟨fun h => ?_, fun h => ?_, by decide⟩
  · unfold compareVersions compareParts
    rw [h, releaseLoop_append_left]
    simp only [List.length_append]
    rw [if_neg (by omega), if_pos (by omega)]
  · unfold compareVersions compareParts
    rw [h, releaseLoop_append_right]
    simp only [List.length_append]
    rw [if_pos (by omega)]

theorem compareVersions_longer_release_witness :
    (([1] : List Int) ≠ [] ∧
      (versionParts "1.2.3.1-rc").1 = (versionParts "1.2.3").1 ++ [1]) ∧
    compareVersions "1.2.3.1-rc" "1.2.3" = newer :=
  ⟨⟨by decide, by decide⟩,
   (compareVersions_longer_release "1.2.3.1-rc" "1.2.3" [1] (by decide)).1 (by decide)⟩

theorem Less_true_iff (x y : Release) :
    sortByRelease.Less x y = true ↔ (0 : Int) < compareVersions x.Version y.Version := by
  unfold sortByRelease.Less
  rw [decide_eq_true_eq]

/-- C19: the sign of `compareVersions` is a transitive total preorder: from
`compareVersions a b ≥ 0` and `compareVersions b c ≥ 0` follows
`compareVersions a c ≥ 0`, and `> 0` when one of the two is `> 0`; any two
strings are comparable; hence `sortByRelease.Less` is a strict weak ordering:
irreflexive, asymmetric, transitive, with transitive incomparability. -/
theorem compareVersions_preorder (a b c : String)
    (h1 : (0 : Int) ≤ compareVersions a b) (h2 : (0 : Int) ≤ compareVersions b c) :
    (0 : Int) ≤ compareVersions a c ∧
    (((0 : Int) < compareVersions a b ∨ (0 : Int) < compareVersions b c) →
      (0 : Int) < compareVersions a c) ∧
    (∀ x y : String, (0 : Int) ≤ compareVersions x y ∨ (0 : Int) ≤ compareVersions y x) ∧
    (∀ x : Release, sortByRelease.Less x x = false) ∧
    (∀ x y : Release, sortByRelease.Less x y = true → sortByRelease.Less y x = false) ∧
    (∀ x y z : Release, sortByRelease.Less x y = true → sortByRelease.Less y z = true →
      sortByRelease.Less x z = true) ∧
    (∀ x y z : Release,
      sortByRelease.Less x y = false → sortByRelease.Less y x = false →
      sortByRelease.Less y z = false → sortByRelease.Less z y = false →
      sortByRelease.Less x z = false ∧ sortByRelease.Less z x = false) := by
  have htot : ∀ x y : String,
      (0 : Int) ≤ compareVersions x y ∨ (0 : Int) ≤ compareVersions y x := by
    intro x y
    have := compareVersions_swap x y
    by_cases h : (0 : Int) ≤ compareVersions x y
    · exact Or.inl h
    · right; linarith [not_le.mp h]
  refine ⟨(compareVersions_trans a b c h1 h2).1, (compareVersions_trans a b c h1 h2).2,
    htot, ?_, ?_, ?_, ?_⟩
  · intro x
    rw [Less_false_iff, compareVersions_self]
  · intro x y h
    rw [Less_true_iff] at h
    rw [Less_false_iff]
    exact le_of_lt h
  · intro x y z hxy hyz
    rw [Less_true_iff] at hxy hyz ⊢
    exact (compareVersions_trans _ _ _ (le_of_lt hxy) (le_of_lt hyz)).2 (Or.inl hxy)
  · intro x y z hxy hyx hyz hzy
    rw [Less_false_iff] at hxy hyx hyz hzy
    rw [Less_false_iff, Less_false_iff]
    exact ⟨(compareVersions_trans _ _ _ hyz hxy).1, (compareVersions_trans _ _ _ hyx hzy).1⟩

theorem compareVersions_preorder_witness :
    ((0 : Int) ≤ compareVersions "1.2.0" "1.1.0" ∧
      (0 : Int) ≤ compareVersions "1.1.0" "v1.1.0") ∧
    (0 : Int) ≤ compareVersions "1.2.0" "v1.1.0" ∧
    (((0 : Int) < compareVersions "1.2.0" "1.1.0" ∨
        (0 : Int) < compareVersions "1.1.0" "v1.1.0") →
      (0 : Int) < compareVersions "1.2.0" "v1.1.0") :=
  ⟨⟨by decide, by decide⟩,
   (compareVersions_preorder "1.2.0" "1.1.0" "v1.1.0" (by decide) (by decide)).1,
   (compareVersions_preorder "1.2.0" "1.1.0" "v1.1.0" (by decide) (by decide)).2.1⟩

theorem compareParts_eq_zero_iff (arel : List Int) (apre : List PreId) (brel : List Int)
    (bpre : List PreId) :
    compareParts arel apre brel bpre = (0 : Int) ↔ (arel, apre) = (brel, bpre) := by
  have hs := compareParts_sign arel apre brel bpre
  constructor
  · intro h
    apply signOrder_partsSign.eq_of_zero
    have h1 : ¬ (0 : Int) < partsSign (arel, apre) (brel, bpre) := by
      intro hp; have := hs.1.mpr hp; linarith
    have h2 : ¬ partsSign (arel, apre) (brel, bpre) < 0 := by
      intro hp; have := hs.2.mpr hp; linarith
    omega
  · intro h
    have hz : partsSign (arel, apre) (brel, bpre) = 0 := by
      rw [h]; exact signOrder_refl signOrder_partsSign _
    have h1 : ¬ (0 : Int) < compareParts arel apre brel bpre := by
      intro hp; have := hs.1.mp hp; omega
    have h2 : ¬ compareParts arel apre brel bpre < (0 : Int) := by
      intro hp; have := hs.2.mp hp; omega
    linarith [not_lt.mp h1, not_lt.mp h2]

/-- C20: `compareVersions a b` is equal exactly when `versionParts a` and
`versionParts b` are identical: the same release components and the same
prerelease identifiers, integer or string alike at each position. -/
theorem compareVersions_equal_iff (a b : String) :
    (compareVersions a b = equal ↔ versionParts a = versionParts b) ∧
    (compareVersions a b = equal ↔
      ((versionParts a).1 = (versionParts b).1 ∧ (versionParts a).2 = (versionParts b).2)) := by
  have h := compareParts_eq_zero_iff (versionParts a).1 (versionParts a).2
    (versionParts b).1 (versionParts b).2
  have e : compareVersions a b = equal ↔
      ((versionParts a).1, (versionParts a).2) = ((versionParts b).1, (versionParts b).2) := h
  constructor
  · exact e.trans ⟨fun hh => Prod.ext (congrArg Prod.fst hh) (congrArg Prod.snd hh),
      fun hh => by rw [hh]⟩
  · exact e.trans ⟨fun hh => ⟨congrArg Prod.fst hh, congrArg Prod.snd hh⟩,
      fun hh => by rw [hh.1, hh.2]⟩


/-! ## Further claims about `releases.go` -/

/-- C14, as stated, fails: a response with status code 101, which is not in the
range 200-299, and a body that decodes to the catalog of the specification is
accepted: `GithubReleases` returns the release `1.4.0` and no error. -/
theorem GithubReleases_status_101 :
    GithubReleases insertionSortByRelease
        (serveStatus 101 "101 Switching Protocols" specCatalog)
        "calmh/someproject" "1.3.0" false false =
      ([{ Version := "1.4.0",
          Assets := [{ Name := "app-linux-amd64.tar.gz", URL := "https://h/a" }] }], none) ∧
    ¬ ((200 : Int) ≤ 101 ∧ (101 : Int) ≤ 299) := by
  decide

/-- C14, amended: for every response of the release index whose status code is
greater than 299, whatever its body contains, and for every response whose
body cannot be decoded, `GithubReleases` returns an empty list of releases
and a non-nil error. -/
theorem GithubReleases_rejects (sortFn : List Release → List Release)
    (httpGet : String → Except String Response) (project currentVersion : String)
    (allowMajorUpgrade allowPrerelease : Bool) (resp : Response)
    (hget : httpGet ("https://api.github.com/repos/" ++ project ++ "/releases?per_page=30")
      = .ok resp)
    (hfail : resp.StatusCode > 299 ∨ ∃ err, resp.Body = .error err) :
    (GithubReleases sortFn httpGet project currentVersion allowMajorUpgrade
        allowPrerelease).1 = [] ∧
    (GithubReleases sortFn httpGet project currentVersion allowMajorUpgrade
        allowPrerelease).2 ≠ none := by
  unfold GithubReleases
  rw [hget]
  simp only
  by_cases hc : resp.StatusCode > 299
  · rw [if_pos hc]
    exact ⟨rfl, by simp⟩
  · rw [if_neg hc]
    rcases hfail with h | ⟨err, h⟩
    · exact absurd h hc
    · rw [h]
      exact ⟨rfl, by simp⟩

theorem GithubReleases_rejects_witness :
    (serveStatus 404 "404 Not Found" specCatalog
        ("https://api.github.com/repos/" ++ "calmh/someproject" ++ "/releases?per_page=30")
        = .ok { StatusCode := 404, Status := "404 Not Found", Body := .ok specCatalog } ∧
      ((404 : Int) > 299 ∨ ∃ err, (Except.ok specCatalog : Except String (List ghRel))
        = .error err)) ∧
    ((GithubReleases insertionSortByRelease (serveStatus 404 "404 Not Found" specCatalog)
        "calmh/someproject" "1.3.0" false false).1 = [] ∧
     (GithubReleases insertionSortByRelease (serveStatus 404 "404 Not Found" specCatalog)
        "calmh/someproject" "1.3.0" false false).2 ≠ none) :=
  ⟨⟨rfl, Or.inl (by decide)⟩,
   GithubReleases_rejects insertionSortByRelease (serveStatus 404 "404 Not Found" specCatalog)
     "calmh/someproject" "1.3.0" false false
     { StatusCode := 404, Status := "404 Not Found", Body := .ok specCatalog } rfl
     (Or.inl (by decide))⟩

theorem MatchingAssets_foldl (exp : String → Bool) :
    ∀ (l acc : List Asset),
      l.foldl (fun matched asset => if exp asset.Name then matched ++ [asset] else matched) acc
        = acc ++ l.filter (fun a => exp a.Name)
  | [], acc => by simp
  | a :: l, acc => by
    simp only [List.foldl_cons]
    rw [MatchingAssets_foldl exp l]
    by_cases h : exp a.Name = true
    · simp [h]
    · simp [h]

/-- C15: for every pattern and release, `MatchingAssets` returns the filter of
`rel.Assets` by the match predicate on `Name`: exactly the matching assets,
each as often as it occurs and in the original order.  The function only
reads `rel`, whose asset list is therefore the same afterwards. -/
theorem MatchingAssets_filter (exp : String → Bool) (rel : Release) :
    MatchingAssets exp rel = rel.Assets.filter (fun a => exp a.Name) ∧
    (∀ a, a ∈ MatchingAssets exp rel ↔ (a ∈ rel.Assets ∧ exp a.Name = true)) ∧
    (∀ a, (MatchingAssets exp rel).count a =
      if exp a.Name = true then rel.Assets.count a else 0) ∧
    (MatchingAssets exp rel).Sublist rel.Assets := by
  have h : MatchingAssets exp rel = rel.Assets.filter (fun a => exp a.Name) := by
    unfold MatchingAssets
    rw [MatchingAssets_foldl]
    simp
  rw [h]
  refine ⟨rfl, fun a => ?_, fun a => ?_, List.filter_sublist _⟩
  · simp [List.mem_filter]
  · split_ifs with hc
    · exact List.count_filter hc
    · apply List.count_eq_zero.mpr
      intro hm
      exact hc (List.mem_filter.mp hm).2


/-! ## The release components returned by `versionParts` -/

theorem SplitN2_headD_takeWhile (sep : Char) :
    ∀ l : List Char, (SplitN2 sep l).headD [] = l.takeWhile (fun c => decide (c ≠ sep))
  | [] => by simp [SplitN2]
  | c :: cs => by
    have ih := SplitN2_headD_takeWhile sep cs
    by_cases hc : c = sep
    · simp [SplitN2, hc]
    · simp only [SplitN2, hc, if_false]
      rw [List.takeWhile_cons_of_pos (by simpa using hc), ← ih]
      cases SplitN2 sep cs <;> simp

theorem takeWhile_takeWhile (p q : Char → Bool) :
    ∀ l : List Char, (l.takeWhile p).takeWhile q = l.takeWhile (fun c => p c && q c)
  | [] => by simp
  | c :: cs => by
    have ih := takeWhile_takeWhile p q cs
    by_cases hp : p c = true
    · by_cases hq : q c = true
      · rw [List.takeWhile_cons_of_pos hp, List.takeWhile_cons_of_pos hq,
          List.takeWhile_cons_of_pos (by simp [hp, hq]), ih]
      · rw [List.takeWhile_cons_of_pos hp, List.takeWhile_cons_of_neg hq,
          List.takeWhile_cons_of_neg (by simp [hp, hq])]
    · rw [List.takeWhile_cons_of_neg hp, List.takeWhile_cons_of_neg (by simp [hp])]
      simp

/-- The release components are the fields of the release part, each through
`Atoi` with its error dropped. -/
theorem versionParts_release (v : String) :
    (versionParts v).1 = (Split '.' (releasePart v)).map (fun s => (Atoi s).1) := by
  unfold versionParts releasePart
  simp only
  rw [SplitN2_headD_takeWhile, SplitN2_headD_takeWhile, takeWhile_takeWhile]

theorem Split_length (sep : Char) :
    ∀ l : List Char, (Split sep l).length = l.count sep + 1
  | [] => by simp [Split]
  | c :: cs => by
    have ih := Split_length sep cs
    by_cases hc : c = sep
    · subst hc
      simp [Split, ih]
    · simp only [Split, hc, if_false]
      rw [List.count_cons_of_ne (fun e => hc e.symm), ← ih]
      cases h : Split sep cs with
      | nil => rw [h] at ih; simp at ih
      | cons p rest => simp

theorem Split_mem (sep : Char) :
    ∀ (l f : List Char) (c : Char), f ∈ Split sep l → c ∈ f → c ∈ l
  | [], f, c, hf, hc => by
    simp only [Split, List.mem_singleton] at hf
    subst hf
    exact hc
  | x :: xs, f, c, hf, hc => by
    by_cases hx : x = sep
    · simp only [Split, hx, if_true, List.mem_cons] at hf
      rcases hf with hf | hf
      · subst hf; simp at hc
      · exact List.mem_cons_of_mem _ (Split_mem sep xs f c hf hc)
    · simp only [Split, hx, if_false] at hf
      cases h : Split sep xs with
      | nil =>
        rw [h] at hf
        simp only [List.mem_singleton] at hf
        subst hf
        simp only [List.mem_singleton] at hc
        subst hc
        simp
      | cons p rest =>
        rw [h] at hf
        simp only [List.mem_cons] at hf
        rcases hf with hf | hf
        · subst hf
          simp only [List.mem_cons] at hc
          rcases hc with hc | hc
          · subst hc; simp
          · exact List.mem_cons_of_mem _
              (Split_mem sep xs p c (by rw [h]; simp) hc)
        · exact List.mem_cons_of_mem _
            (Split_mem sep xs f c (by rw [h]; simp [hf]) hc)

theorem releasePart_no_sign (v : String) (c : Char) (hc : c ∈ releasePart v) :
    c ≠ '+' ∧ c ≠ '-' := by
  unfold releasePart at hc
  have := List.mem_takeWhile_imp hc
  simpa using this

theorem leadingValue_ge : ∀ (f : List Char) (n : Nat), n ≤ leadingValue f n
  | [], n => by simp [leadingValue]
  | c :: cs, n => by
    simp only [leadingValue]
    split_ifs
    · have := leadingValue_ge cs (n * 10 + (c.toNat - 48))
      omega
    · exact Nat.le_refl n

/-- The digit loop of `ParseUint`, in closed form. -/
theorem parseUintLoop_eq :
    ∀ (f : List Char) (n : Nat), n ≤ maxUint64 →
      parseUintLoop f n =
        if leadingValue f n > maxUint64 then .error .ErrRange
        else if f.all isDigit = true then .ok (leadingValue f n)
        else .error .ErrSyn
  | [], n, hn => by
    simp only [parseUintLoop, leadingValue, List.all_nil, if_true]
    rw [if_neg (by omega)]
  | c :: cs, n, hn => by
    simp only [parseUintLoop, leadingValue, List.all_cons]
    by_cases hd : 48 ≤ c.toNat ∧ c.toNat ≤ 57
    · have hd' : isDigit c = true := by simp [isDigit, hd]
      rw [if_pos hd, if_pos hd']
      have hge := leadingValue_ge cs (n * 10 + (c.toNat - 48))
      by_cases h1 : n ≥ maxUint64 / 10 + 1
      · rw [if_pos h1, if_pos]
        unfold maxUint64 at h1 ⊢
        omega
      · rw [if_neg h1]
        by_cases h2 : n * 10 + (c.toNat - 48) > maxUint64
        · rw [if_pos h2, if_pos (by omega)]
        · rw [if_neg h2, parseUintLoop_eq cs _ (by omega)]
          simp [hd']
    · have hd' : ¬ isDigit c = true := by simp [isDigit]; omega
      rw [if_neg hd, if_neg hd', if_neg (by omega)]
      simp [hd']

theorem ParseUint_eq (c : Char) (cs : List Char) :
    ParseUint (c :: cs) =
      if leadingValue (c :: cs) 0 > maxUint64 then (maxUint64, some NumError.ErrRange)
      else if (c :: cs).all isDigit = true then (leadingValue (c :: cs) 0, none)
      else (0, some NumError.ErrSyn) := by
  unfold ParseUint
  rw [parseUintLoop_eq (c :: cs) 0 (by unfold maxUint64; omega)]
  split_ifs <;> rfl

theorem Atoi_fieldValue (f : List Char) (hplus : '+' ∉ f) (hminus : '-' ∉ f) :
    (Atoi f).1 = fieldValue f := by
  cases f with
  | nil => simp [Atoi, ParseInt, fieldValue, leadingValue, isDecimal, maxUint64]
  | cons c cs =>
    have hc1 : ¬ c = '+' := fun e => hplus (by simp [e])
    have hc2 : ¬ c = '-' := fun e => hminus (by simp [e])
    have hor : ¬ (c = '+' ∨ c = '-') := by tauto
    unfold Atoi ParseInt fieldValue
    simp only [if_neg hor, ParseUint_eq]
    by_cases h1 : leadingValue (c :: cs) 0 > maxUint64
    · rw [if_pos h1, if_pos h1]
      simp [hc2, maxUint64]
    · rw [if_neg h1, if_neg h1]
      by_cases h2 : (c :: cs).all isDigit = true
      · have hdec : isDecimal (c :: cs) = true := by
          unfold isDecimal
          rw [h2]
          simp
        rw [if_pos h2, if_pos hdec]
        by_cases h3 : leadingValue (c :: cs) 0 ≥ 9223372036854775808
        · simp [h3, hc2]
        · simp [h3, hc2]
      · have hdec : ¬ isDecimal (c :: cs) = true := by
          unfold isDecimal
          intro h
          rw [Bool.and_eq_true] at h
          exact h2 h.2
        rw [if_neg h2, if_neg hdec]

theorem fieldValue_nonneg (f : List Char) : 0 ≤ fieldValue f := by
  unfold fieldValue maxInt
  split_ifs <;> omega

/-- C18, as stated, fails: the field `99999999999999999999x` is not a decimal
number, yet `strconv.Atoi` reports the overflow of its first twenty digits
before it reaches the `x`, and the component is the largest `int`, not 0. -/
theorem versionParts_overflow_field :
    (versionParts "1.99999999999999999999x.3").1 = [1, 9223372036854775807, 3] ∧
    isDecimal "99999999999999999999x".data = false ∧
    compareVersions "1.99999999999999999999x.3" "1.0.3" = newer ∧
    ¬ ((versionParts "1.99999999999999999999x.3").1.getD 1 0 = 0) := by
  decide

/-- C18, amended: for every string `v`, `versionParts v` returns a release
sequence with exactly one component per dot-separated field of the release
part, hence of length at least 1; every component is a non-negative integer;
and a field that is not a decimal number contributes 0, unless the digits it
begins with overflow 64 bits, in which case it contributes the largest `int`;
so `compareVersions "1.x.3" "1.0.3"` is equal. -/
theorem versionParts_release_components (v : String) :
    (versionParts v).1 = (Split '.' (releasePart v)).map (fun f => (Atoi f).1) ∧
    (versionParts v).1.length = (releasePart v).count '.' + 1 ∧
    1 ≤ (versionParts v).1.length ∧
    (∀ c ∈ (versionParts v).1, (0 : Int) ≤ c) ∧
    (∀ f ∈ Split '.' (releasePart v), isDecimal f = false →
      (Atoi f).1 = if leadingValue f 0 > maxUint64 then maxInt else 0) ∧
    compareVersions "1.x.3" "1.0.3" = equal := by
  have hrel := versionParts_release v
  have hfield : ∀ f ∈ Split '.' (releasePart v), (Atoi f).1 = fieldValue f := by
    intro f hf
    apply Atoi_fieldValue
    · intro hc
      exact (releasePart_no_sign v _ (Split_mem '.' _ f _ hf hc)).1 rfl
    · intro hc
      exact (releasePart_no_sign v _ (Split_mem '.' _ f _ hf hc)).2 rfl
  have hlen : (versionParts v).1.length = (releasePart v).count '.' + 1 := by
    rw [hrel, List.length_map, Split_length]
  refine ⟨hrel, hlen, by omega, ?_, ?_, by decide⟩
  · intro c hc
    rw [hrel] at hc
    obtain ⟨f, hf, rfl⟩ := List.mem_map.mp hc
    rw [hfield f hf]
    exact fieldValue_nonneg f
  · intro f hf hdec
    rw [hfield f hf]
    unfold fieldValue
    rw [hdec]
    simp


/-! ## Further claims about `upgrade.go` -/

/-- C13, evaluated where it fails: when the tar stream breaks off after the
payload, `upgradeToURL` returns the error of `readTarGz` and the temp file it
wrote is still there; and when the rename of the binary fails after a
successful verification, the error is returned and the temp file is still
there. -/
theorem upgradeToURL_leaves_temp :
    ((upgradeToURL truncatedEnv "/bin/syncthing" "https://h/a" [] sampleSys).1
        = some "unexpected EOF" ∧
      (upgradeToURL truncatedEnv "/bin/syncthing" "https://h/a" [] sampleSys).2.fs
        "/bin/syncthing042" = some { data := [7, 8], mode := 0o755 } ∧
      sampleSys.fs "/bin/syncthing042" = none) ∧
    ((upgradeToURL (sampleEnv true) "/bin/syncthing" "https://h/a" [] renameFailsSys).1
        = some "rename failed" ∧
      (upgradeToURL (sampleEnv true) "/bin/syncthing" "https://h/a" [] renameFailsSys).2.fs
        "/bin/syncthing042" = some { data := [7, 8], mode := 0o755 } ∧
      renameFailsSys.fs "/bin/syncthing042" = none) := by
  decide


/-! ## Extraction from a well-formed archive -/

theorem Ready.mono {s : Sys} {k : Nat} (h : Ready s (k + 1)) : Ready s k :=
  ⟨h.1, h.2.1, h.2.2.1, by have := h.2.2.2; omega⟩

theorem nextFault_ready (s : Sys) (hf : ∀ f ∈ s.faults, f = false) :
    (nextFault s).1 = false ∧ (∀ f ∈ (nextFault s).2.faults, f = false) ∧
      (nextFault s).2.fs = s.fs ∧ (nextFault s).2.names = s.names := by
  unfold nextFault
  cases h : s.faults with
  | nil => simp [h]
  | cons f rest =>
    rw [h] at hf
    have h0 : f = false := hf f (by simp)
    refine ⟨h0, fun g hg => hf g (by simp [hg]), rfl, rfl⟩

/-- In a ready environment `writeBinary` succeeds on a reader without error: it
returns a non-empty name and leaves the environment ready for one file less. -/
theorem writeBinary_ready (dir : String) (r : Reader) (s : Sys) (k : Nat)
    (hs : Ready s (k + 1)) (hr : r.err = false) :
    (writeBinary dir r s).1.2 = none ∧ (writeBinary dir r s).1.1 ≠ "" ∧
      Ready (writeBinary dir r s).2 k := by
  obtain ⟨hf, hnd, hfresh, hlen⟩ := hs
  obtain ⟨f1, hf1, hfs1, hn1⟩ := nextFault_ready s hf
  cases hnames : s.names with
  | nil => rw [hnames] at hlen; simp at hlen
  | cons n rest =>
    rw [hnames] at hnd hfresh hlen
    have hn : n ≠ "" ∧ s.fs n = none := hfresh n (by simp)
    have hrest : ∀ m ∈ rest, m ≠ n := by
      intro m hm e
      subst e
      exact (List.nodup_cons.mp hnd).1 hm
    -- the state after `ioutil.TempFile`
    have htemp : ioutilTempFile dir "syncthing" s =
        (.ok n, { (nextFault s).2 with
          fs := fun p => if p = n then some { data := [], mode := 0o600 }
                         else (nextFault s).2.fs p,
          names := rest,
          log := (nextFault s).2.log ++ [Event.create n] }) := by
      unfold ioutilTempFile
      simp only [f1]
      rw [hn1, hfs1, hnames]
      simp [pickName, hn.2]
    unfold writeBinary
    rw [htemp]
    simp only
    generalize hst1 : ({ (nextFault s).2 with
          fs := fun p => if p = n then some { data := [], mode := 0o600 }
                         else (nextFault s).2.fs p,
          names := rest,
          log := (nextFault s).2.log ++ [Event.create n] } : Sys) = st1
    have a1 : ∀ f ∈ st1.faults, f = false := by rw [← hst1]; exact hf1
    have b1 : st1.names = rest := by rw [← hst1]
    have c1 : (st1.fs n).isSome = true := by rw [← hst1]; simp
    have d1 : ∀ m, m ≠ n → st1.fs m = s.fs m := by
      intro m hm; rw [← hst1]; simp [hm, hfs1]
    -- `io.Copy`
    obtain ⟨f2, hf2, hfs2, hn2⟩ := nextFault_ready st1 a1
    have hcopy : (ioCopy n r st1).1 = none ∧
        (∀ f ∈ (ioCopy n r st1).2.faults, f = false) ∧
        (ioCopy n r st1).2.names = rest ∧
        ((ioCopy n r st1).2.fs n).isSome = true ∧
        (∀ m, m ≠ n → (ioCopy n r st1).2.fs m = s.fs m) := by
      unfold ioCopy
      simp only [f2, hr]
      refine ⟨by simp, hf2, by simp [hn2, b1], ?_, ?_⟩
      · simp only [Bool.false_eq_true, if_false, if_true]
        rw [hfs2]
        cases hh : st1.fs n with
        | none => rw [hh] at c1; simp at c1
        | some fl => simp
      · intro m hm
        simp only [Bool.false_eq_true, if_false, hm]
        rw [hfs2]
        exact d1 m hm
    cases hc : ioCopy n r st1 with
    | mk e2 st2 =>
      rw [hc] at hcopy
      obtain ⟨he2, a2, b2, c2, d2⟩ := hcopy
      simp only at he2 a2 b2 c2 d2
      subst he2
      simp only
      -- `Close`
      obtain ⟨f3, hf3, hfs3, hn3⟩ := nextFault_ready st2 a2
      have hclose : fileClose n st2 = (none, (nextFault st2).2) := by
        unfold fileClose
        simp [f3]
      rw [hclose]
      simp only
      -- `os.Chmod`
      obtain ⟨f4, hf4, hfs4, hn4⟩ := nextFault_ready (nextFault st2).2 hf3
      have hsome : ((nextFault (nextFault st2).2).2.fs n).isNone = false := by
        rw [hfs4, hfs3]
        cases hh : st2.fs n with
        | none => rw [hh] at c2; simp at c2
        | some fl => simp
      have hchmod : osChmod n 0o755 (nextFault st2).2 =
          (none, { (nextFault (nextFault st2).2).2 with
            fs := fun p => if p = n then
                ((nextFault (nextFault st2).2).2.fs n).map (fun fl => { fl with mode := 0o755 })
              else (nextFault (nextFault st2).2).2.fs p,
            log := (nextFault (nextFault st2).2).2.log ++ [Event.chmod n] }) := by
        unfold osChmod
        simp [f4, hn.1, hsome]
      rw [hchmod]
      simp only
      refine ⟨trivial, hn.1, hf4, ?_, ?_, ?_⟩
      · simp only [hn4, hn3, b2]
        exact (List.nodup_cons.mp hnd).2
      · intro m hm
        simp only [hn4, hn3, b2] at hm
        have hmn := hrest m hm
        refine ⟨(hfresh m (by simp [hm])).1, ?_⟩
        simp only [hmn, if_false]
        rw [hfs4, hfs3, d2 m hmn]
        exact (hfresh m (by simp [hm])).2
      · simp only [hn4, hn3, b2]
        simp only [List.length_cons] at hlen
        omega

theorem payloadName_iff (n : String) :
    payloadName n = true ↔ (n = "syncthing" ∨ n = "syncthing.exe") := by
  unfold payloadName
  rw [decide_eq_true_eq]

theorem sigName_iff (n : String) :
    sigName n = true ↔ (n = "syncthing.sig" ∨ n = "syncthing.exe.sig") := by
  unfold sigName
  rw [decide_eq_true_eq]

theorem sigName_of_payloadName (n : String) (h : payloadName n = true) : sigName n = false := by
  rw [payloadName_iff] at h
  rcases h with h | h <;> subst h <;> decide

theorem or_exists_cons {α : Type} (P : α → Prop) (A T : Prop) (x : α) (l : List α)
    (hv : A ↔ (T ∨ P x)) :
    (A ∨ ∃ e ∈ l, P e) ↔ (T ∨ ∃ e ∈ x :: l, P e) := by
  constructor
  · rintro (h | ⟨e, he, hp⟩)
    · rcases hv.mp h with h | h
      · exact Or.inl h
      · exact Or.inr ⟨x, List.mem_cons_self _ _, h⟩
    · exact Or.inr ⟨e, List.mem_cons_of_mem _ he, hp⟩
  · rintro (h | ⟨e, he, hp⟩)
    · exact Or.inl (hv.mpr (Or.inl h))
    · rcases List.mem_cons.mp he with rfl | he
      · exact Or.inl (hv.mpr (Or.inr hp))
      · exact Or.inr ⟨e, he, hp⟩

theorem iff_exists_cons {α : Type} (P : α → Prop) (A T : Prop) (x : α) (l : List α)
    (ha : A) (hv : A ↔ (T ∨ P x)) :
    A ↔ (T ∨ ∃ e ∈ x :: l, P e) := by
  constructor
  · intro h
    rcases hv.mp h with h | h
    · exact Or.inl h
    · exact Or.inr ⟨x, List.mem_cons_self _ _, h⟩
  · intro _; exact ha

/-- One call of `archiveFileVisitor` in a ready environment, on an entry that
reads without error. -/
theorem archiveFileVisitor_ready (dir tempFile : String) (signature : Option Bytes)
    (filename : String) (r : Reader) (s : Sys) (k : Nat) (hr : r.err = false)
    (hs : Ready s (k + if payloadName filename = true then 1 else 0)) :
    (archiveFileVisitor dir tempFile signature filename r s).1.2.2 = none ∧
    ((archiveFileVisitor dir tempFile signature filename r s).1.1 ≠ "" ↔
      (tempFile ≠ "" ∨ payloadName filename = true)) ∧
    ((archiveFileVisitor dir tempFile signature filename r s).1.2.1 ≠ none ↔
      (signature ≠ none ∨ sigName filename = true)) ∧
    Ready (archiveFileVisitor dir tempFile signature filename r s).2 k := by
  unfold archiveFileVisitor
  by_cases hp : filename = "syncthing" ∨ filename = "syncthing.exe"
  · have hp' : payloadName filename = true := (payloadName_iff _).mpr hp
    have hsg := sigName_of_payloadName _ hp'
    rw [if_pos hp]
    rw [if_pos hp'] at hs
    obtain ⟨w1, w2, w3⟩ := writeBinary_ready dir r s k hs hr
    cases hw : writeBinary dir r s with
    | mk res s1 =>
      rw [hw] at w1 w2 w3
      obtain ⟨name, err⟩ := res
      simp only at w1 w2 w3
      subst w1
      simp only
      refine ⟨trivial, ?_, ?_, w3⟩
      · simp [w2, hp']
      · simp [hsg]
  · have hp' : ¬ payloadName filename = true := fun h => hp ((payloadName_iff _).mp h)
    rw [if_neg hp]
    rw [if_neg hp', Nat.add_zero] at hs
    by_cases hg : filename = "syncthing.sig" ∨ filename = "syncthing.exe.sig"
    · have hg' : sigName filename = true := (sigName_iff _).mpr hg
      rw [if_pos hg]
      unfold ioutilReadAll
      simp only [hr, Bool.false_eq_true, if_false]
      refine ⟨trivial, ?_, ?_, hs⟩
      · simp [hp']
      · simp [hg']
    · have hg' : ¬ sigName filename = true := fun h => hg ((sigName_iff _).mp h)
      rw [if_neg hg]
      refine ⟨rfl, ?_, ?_, hs⟩
      · simp [hp']
      · simp [hg']

theorem tarLoop_ready (dir : String) :
    ∀ (entries : List Entry) (tempName : String) (sig : Option Bytes) (s : Sys),
      (∀ e ∈ entries, e.openErr = false ∧ e.body.err = false) →
      Ready s (entries.countP (fun e => payloadName (Base e.Name))) →
      (tarLoop dir false entries tempName sig s).1.2.2 = none ∧
      ((tarLoop dir false entries tempName sig s).1.1 ≠ "" ↔
        (tempName ≠ "" ∨ ∃ e ∈ entries, payloadName (Base e.Name) = true)) ∧
      ((tarLoop dir false entries tempName sig s).1.2.1 ≠ none ↔
        (sig ≠ none ∨ ∃ e ∈ entries, sigName (Base e.Name) = true))
  | [], tempName, sig, s, _, _ => by
    unfold tarLoop
    simp
  | hdr :: rest, tempName, sig, s, hwf, hs => by
    have hhdr := hwf hdr (by simp)
    have hrest : ∀ e ∈ rest, e.openErr = false ∧ e.body.err = false :=
      fun e he => hwf e (by simp [he])
    rw [List.countP_cons] at hs
    obtain ⟨v1, v2, v3, v4⟩ := archiveFileVisitor_ready dir tempName sig (Base hdr.Name)
      hdr.body s _ hhdr.2 hs
    unfold tarLoop
    simp only
    cases hv : archiveFileVisitor dir tempName sig (Base hdr.Name) hdr.body s with
    | mk res s1 =>
      rw [hv] at v1 v2 v3 v4
      obtain ⟨t1, sig1, err⟩ := res
      simp only at v1 v2 v3 v4
      subst v1
      simp only
      by_cases hb : t1 ≠ "" ∧ sig1 ≠ none
      · rw [if_pos hb]
        exact ⟨rfl, iff_exists_cons _ _ _ _ _ hb.1 v2, iff_exists_cons _ _ _ _ _ hb.2 v3⟩
      · rw [if_neg hb]
        obtain ⟨r1, r2, r3⟩ := tarLoop_ready dir rest t1 sig1 s1 hrest v4
        exact ⟨r1, r2.trans (or_exists_cons _ _ _ _ _ v2), r3.trans (or_exists_cons _ _ _ _ _ v3)⟩

theorem zipLoop_ready (dir : String) :
    ∀ (entries : List Entry) (tempName : String) (sig : Option Bytes) (s : Sys),
      (∀ e ∈ entries, e.openErr = false ∧ e.body.err = false) →
      Ready s (entries.countP (fun e => payloadName (Base e.Name))) →
      (zipLoop dir entries tempName sig s).1.2.2 = none ∧
      ((zipLoop dir entries tempName sig s).1.1 ≠ "" ↔
        (tempName ≠ "" ∨ ∃ e ∈ entries, payloadName (Base e.Name) = true)) ∧
      ((zipLoop dir entries tempName sig s).1.2.1 ≠ none ↔
        (sig ≠ none ∨ ∃ e ∈ entries, sigName (Base e.Name) = true))
  | [], tempName, sig, s, _, _ => by
    unfold zipLoop
    simp
  | file :: rest, tempName, sig, s, hwf, hs => by
    have hfile := hwf file (by simp)
    have hrest : ∀ e ∈ rest, e.openErr = false ∧ e.body.err = false :=
      fun e he => hwf e (by simp [he])
    rw [List.countP_cons] at hs
    obtain ⟨v1, v2, v3, v4⟩ := archiveFileVisitor_ready dir tempName sig (Base file.Name)
      file.body s _ hfile.2 hs
    unfold zipLoop
    simp only [hfile.1, Bool.false_eq_true, if_false]
    cases hv : archiveFileVisitor dir tempName sig (Base file.Name) file.body s with
    | mk res s1 =>
      rw [hv] at v1 v2 v3 v4
      obtain ⟨t1, sig1, err⟩ := res
      simp only at v1 v2 v3 v4
      subst v1
      simp only
      by_cases hb : t1 ≠ "" ∧ sig1 ≠ none
      · rw [if_pos hb]
        exact ⟨rfl, iff_exists_cons _ _ _ _ _ hb.1 v2, iff_exists_cons _ _ _ _ _ hb.2 v3⟩
      · rw [if_neg hb]
        obtain ⟨r1, r2, r3⟩ := zipLoop_ready dir rest t1 sig1 s1 hrest v4
        exact ⟨r1, r2.trans (or_exists_cons _ _ _ _ _ v2), r3.trans (or_exists_cons _ _ _ _ _ v3)⟩


/-- C16: for every well-formed archive, in an environment where writing the temp
files succeeds, `readTarGz` and `readZip` return no error, a non-empty temp
path exactly when some entry has base name `syncthing` or `syncthing.exe`, and
a non-nil signature exactly when some entry has base name `syncthing.sig` or
`syncthing.exe.sig`; so an archive with both yields both, and one without the
payload or without the signature yields the empty path or the nil signature
and no error. -/
theorem extraction_well_formed (dir : String) (a : Archive) (s : Sys)
    (hwf : WellFormed a)
    (hready : Ready s (a.entries.countP (fun e => payloadName (Base e.Name)))) :
    ((readTarGz dir a s).1.2.2 = none ∧
      ((readTarGz dir a s).1.1 ≠ "" ↔
        ∃ e ∈ a.entries, Base e.Name = "syncthing" ∨ Base e.Name = "syncthing.exe") ∧
      ((readTarGz dir a s).1.2.1 ≠ none ↔
        ∃ e ∈ a.entries, Base e.Name = "syncthing.sig" ∨ Base e.Name = "syncthing.exe.sig")) ∧
    ((readZip dir a s).1.2.2 = none ∧
      ((readZip dir a s).1.1 ≠ "" ↔
        ∃ e ∈ a.entries, Base e.Name = "syncthing" ∨ Base e.Name = "syncthing.exe") ∧
      ((readZip dir a s).1.2.1 ≠ none ↔
        ∃ e ∈ a.entries, Base e.Name = "syncthing.sig" ∨ Base e.Name = "syncthing.exe.sig")) := by
  obtain ⟨hb, hh, ht, he⟩ := hwf
  have hP : (∃ e ∈ a.entries, payloadName (Base e.Name) = true) ↔
      ∃ e ∈ a.entries, Base e.Name = "syncthing" ∨ Base e.Name = "syncthing.exe" :=
    ⟨fun ⟨e, h1, h2⟩ => ⟨e, h1, (payloadName_iff _).mp h2⟩,
     fun ⟨e, h1, h2⟩ => ⟨e, h1, (payloadName_iff _).mpr h2⟩⟩
  have hS : (∃ e ∈ a.entries, sigName (Base e.Name) = true) ↔
      ∃ e ∈ a.entries, Base e.Name = "syncthing.sig" ∨ Base e.Name = "syncthing.exe.sig" :=
    ⟨fun ⟨e, h1, h2⟩ => ⟨e, h1, (sigName_iff _).mp h2⟩,
     fun ⟨e, h1, h2⟩ => ⟨e, h1, (sigName_iff _).mpr h2⟩⟩
  have hor1 : ∀ Q : Prop, ((("" : String) ≠ "") ∨ Q) ↔ Q :=
    fun Q => ⟨fun h => h.elim (fun h => absurd rfl h) id, Or.inr⟩
  have hor2 : ∀ Q : Prop, (((none : Option Bytes) ≠ none) ∨ Q) ↔ Q :=
    fun Q => ⟨fun h => h.elim (fun h => absurd rfl h) id, Or.inr⟩
  constructor
  · obtain ⟨r1, r2, r3⟩ := tarLoop_ready dir a.entries "" none s he hready
    unfold readTarGz
    rw [hh, ht]
    simp only [Bool.false_eq_true, if_false]
    exact ⟨r1, r2.trans ((hor1 _).trans hP), r3.trans ((hor2 _).trans hS)⟩
  · obtain ⟨r1, r2, r3⟩ := zipLoop_ready dir a.entries "" none s he hready
    unfold readZip
    rw [hb, hh]
    simp only [Bool.false_eq_true, if_false]
    exact ⟨r1, r2.trans ((hor1 _).trans hP), r3.trans ((hor2 _).trans hS)⟩

theorem extraction_well_formed_witness :
    (WellFormed sampleArchive ∧
      Ready sampleSys (sampleArchive.entries.countP (fun e => payloadName (Base e.Name)))) ∧
    (((readTarGz "/bin" sampleArchive sampleSys).1.2.2 = none ∧
      ((readTarGz "/bin" sampleArchive sampleSys).1.1 ≠ "" ↔
        ∃ e ∈ sampleArchive.entries,
          Base e.Name = "syncthing" ∨ Base e.Name = "syncthing.exe") ∧
      ((readTarGz "/bin" sampleArchive sampleSys).1.2.1 ≠ none ↔
        ∃ e ∈ sampleArchive.entries,
          Base e.Name = "syncthing.sig" ∨ Base e.Name = "syncthing.exe.sig")) ∧
    ((readZip "/bin" sampleArchive sampleSys).1.2.2 = none ∧
      ((readZip "/bin" sampleArchive sampleSys).1.1 ≠ "" ↔
        ∃ e ∈ sampleArchive.entries,
          Base e.Name = "syncthing" ∨ Base e.Name = "syncthing.exe") ∧
      ((readZip "/bin" sampleArchive sampleSys).1.2.1 ≠ none ↔
        ∃ e ∈ sampleArchive.entries,
          Base e.Name = "syncthing.sig" ∨ Base e.Name = "syncthing.exe.sig"))) :=
  ⟨⟨⟨rfl, rfl, rfl, by decide⟩, ⟨by decide, by decide, by decide, by decide⟩⟩,
   extraction_well_formed "/bin" sampleArchive sampleSys ⟨rfl, rfl, rfl, by decide⟩
     ⟨by decide, by decide, by decide, by decide⟩⟩


/-! ## The successful run of `upgradeToURL` -/

theorem nextFault_fs (s : Sys) : (nextFault s).2.fs = s.fs := by
  unfold nextFault
  cases s.faults <;> rfl

theorem ioutilTempFile_ok (dir pattern : String) (s : Sys) (n : String)
    (h : (ioutilTempFile dir pattern s).1 = .ok n) :
    (ioutilTempFile dir pattern s).2.fs n = some { data := [], mode := 0o600 } := by
  unfold ioutilTempFile at h ⊢
  simp only at h ⊢
  split_ifs at h ⊢ with hf
  cases hp : pickName (nextFault s).2.fs (nextFault s).2.names with
  | none => rw [hp] at h; simp at h
  | some pr =>
    obtain ⟨m, rest⟩ := pr
    rw [hp] at h
    simp only [Except.ok.injEq] at h
    subst h
    simp

theorem ioCopy_ok (n : String) (r : Reader) (s : Sys) (fl : File)
    (h : (ioCopy n r s).1 = none) (hfl : s.fs n = some fl) :
    (ioCopy n r s).2.fs n = some { fl with data := r.data } := by
  have hfs := nextFault_fs s
  unfold ioCopy at h ⊢
  simp only at h ⊢
  split_ifs at h ⊢ with hf he
  simp [hfs, hfl]

theorem fileClose_fs (n : String) (s : Sys) : (fileClose n s).2.fs = s.fs := by
  have hfs := nextFault_fs s
  unfold fileClose
  simp only
  split_ifs <;> exact hfs

theorem osChmod_ok (n : String) (mode : Nat) (s : Sys) (fl : File)
    (h : (osChmod n mode s).1 = none) (hfl : s.fs n = some fl) :
    n ≠ "" ∧ (osChmod n mode s).2.fs n = some { fl with mode := mode } := by
  have hfs := nextFault_fs s
  unfold osChmod at h ⊢
  simp only at h ⊢
  split_ifs at h ⊢ with hc
  have hn : n ≠ "" := fun e => hc (Or.inr (Or.inl e))
  refine ⟨hn, ?_⟩
  simp [hfs, hfl]

/-- A successful `writeBinary` returns a non-empty name, and the file there holds
the bytes of the reader and is executable. -/
theorem writeBinary_content (dir : String) (r : Reader) (s : Sys)
    (h : (writeBinary dir r s).1.2 = none) :
    (writeBinary dir r s).1.1 ≠ "" ∧
    (writeBinary dir r s).2.fs (writeBinary dir r s).1.1 =
      some { data := r.data, mode := 0o755 } := by
  have t0 := ioutilTempFile_ok dir "syncthing" s
  unfold writeBinary at h ⊢
  cases h0 : ioutilTempFile dir "syncthing" s with
  | mk res s1 =>
    rw [h0] at h t0
    cases res with
    | error err => simp at h
    | ok name =>
      simp only at h ⊢
      have f1 := t0 name rfl
      simp only at f1
      have c1 := ioCopy_ok name r s1 { data := [], mode := 0o600 }
      cases h1 : ioCopy name r s1 with
      | mk e1 s2 =>
        rw [h1] at h c1
        cases e1 with
        | some err => simp at h
        | none =>
          simp only at h ⊢
          have f2 := c1 rfl f1
          simp only at f2
          have c2 := fileClose_fs name s2
          cases h2 : fileClose name s2 with
          | mk e2 s3 =>
            rw [h2] at h c2
            cases e2 with
            | some err => simp at h
            | none =>
              simp only at h c2 ⊢
              have f3 : s3.fs name = some { data := r.data, mode := 0o600 } := by
                rw [c2]; exact f2
              have c3 := osChmod_ok name 0o755 s3 { data := r.data, mode := 0o600 }
              cases h3 : osChmod name 0o755 s3 with
              | mk e3 s4 =>
                rw [h3] at h c3
                cases e3 with
                | some err => simp at h
                | none =>
                  simp only at h ⊢
                  exact c3 rfl f3

theorem archiveFileVisitor_payload (all : List Entry) (dir tempFile : String)
    (signature : Option Bytes) (hdr : Entry) (s : Sys) (hmem : hdr ∈ all)
    (hinv : HoldsPayload all tempFile s)
    (hok : (archiveFileVisitor dir tempFile signature (Base hdr.Name) hdr.body s).1.2.2 = none) :
    HoldsPayload all
      (archiveFileVisitor dir tempFile signature (Base hdr.Name) hdr.body s).1.1
      (archiveFileVisitor dir tempFile signature (Base hdr.Name) hdr.body s).2 := by
  unfold archiveFileVisitor at hok ⊢
  by_cases hp : Base hdr.Name = "syncthing" ∨ Base hdr.Name = "syncthing.exe"
  · rw [if_pos hp] at hok ⊢
    have w := writeBinary_content dir hdr.body s
    cases hw : writeBinary dir hdr.body s with
    | mk res s1 =>
      rw [hw] at hok w
      obtain ⟨name, err⟩ := res
      cases err with
      | some e => simp at hok
      | none =>
        simp only at w ⊢
        exact Or.inr ⟨hdr, hmem, (payloadName_iff _).mpr hp, (w trivial).2⟩
  · rw [if_neg hp] at hok ⊢
    by_cases hg : Base hdr.Name = "syncthing.sig" ∨ Base hdr.Name = "syncthing.exe.sig"
    · rw [if_pos hg] at hok ⊢
      cases hr : ioutilReadAll hdr.body with
      | mk data err =>
        rw [hr] at hok
        cases err with
        | some e => simp at hok
        | none => exact hinv
    · rw [if_neg hg]
      exact hinv

theorem tarLoop_payload (all : List Entry) (dir : String) (tailErr : Bool) :
    ∀ (entries : List Entry) (tempName : String) (sig : Option Bytes) (s : Sys),
      (∀ e ∈ entries, e ∈ all) → HoldsPayload all tempName s →
      HoldsPayload all (tarLoop dir tailErr entries tempName sig s).1.1
        (tarLoop dir tailErr entries tempName sig s).2
  | [], tempName, sig, s, _, hinv => by
    unfold tarLoop
    split_ifs
    · exact Or.inl rfl
    · exact hinv
  | hdr :: rest, tempName, sig, s, hsub, hinv => by
    have hv := archiveFileVisitor_payload all dir tempName sig hdr s (hsub hdr (by simp)) hinv
    unfold tarLoop
    simp only
    cases hvis : archiveFileVisitor dir tempName sig (Base hdr.Name) hdr.body s with
    | mk res s1 =>
      rw [hvis] at hv
      obtain ⟨t1, sig1, err⟩ := res
      cases err with
      | some e => exact Or.inl rfl
      | none =>
        simp only at hv ⊢
        split_ifs
        · exact hv trivial
        · exact tarLoop_payload all dir tailErr rest t1 sig1 s1
            (fun e he => hsub e (by simp [he])) (hv trivial)

theorem zipLoop_payload (all : List Entry) (dir : String) :
    ∀ (entries : List Entry) (tempName : String) (sig : Option Bytes) (s : Sys),
      (∀ e ∈ entries, e ∈ all) → HoldsPayload all tempName s →
      HoldsPayload all (zipLoop dir entries tempName sig s).1.1
        (zipLoop dir entries tempName sig s).2
  | [], tempName, sig, s, _, hinv => by
    unfold zipLoop
    exact hinv
  | file :: rest, tempName, sig, s, hsub, hinv => by
    have hv := archiveFileVisitor_payload all dir tempName sig file s (hsub file (by simp)) hinv
    unfold zipLoop
    simp only
    split_ifs
    · exact Or.inl rfl
    · cases hvis : archiveFileVisitor dir tempName sig (Base file.Name) file.body s with
      | mk res s1 =>
        rw [hvis] at hv
        obtain ⟨t1, sig1, err⟩ := res
        cases err with
        | some e => exact Or.inl rfl
        | none =>
          simp only at hv ⊢
          split_ifs
          · exact hv trivial
          · exact zipLoop_payload all dir rest t1 sig1 s1
              (fun e he => hsub e (by simp [he])) (hv trivial)

/-- After extraction the temp name is empty or names a file with the bytes of a
payload entry of the fetched archive. -/
theorem readRelease_payload (env : Env) (dir url : String) (s : Sys) (a : Archive)
    (hfetch : env.httpDo url = .ok a) :
    HoldsPayload a.entries (readRelease env dir url s).1.1 (readRelease env dir url s).2 := by
  unfold readRelease
  rw [hfetch]
  simp only
  split_ifs
  · unfold readZip
    split_ifs
    · exact Or.inl rfl
    · exact Or.inl rfl
    · exact zipLoop_payload a.entries dir a.entries "" none s (fun _ h => h) (Or.inl rfl)
  · unfold readTarGz
    split_ifs
    · exact Or.inl rfl
    · exact tarLoop_payload a.entries dir a.tailErr a.entries "" none s (fun _ h => h)
        (Or.inl rfl)

theorem verifyUpgrade_ok (env : Env) (tempName : String) (sig : Option Bytes) (key : Bytes)
    (s : Sys) (h : (verifyUpgrade env tempName sig key s).1 = none) :
    tempName ≠ "" ∧ (verifyUpgrade env tempName sig key s).2.fs = s.fs := by
  unfold verifyUpgrade at h ⊢
  split_ifs at h ⊢ with h0
  cases sig with
  | none => simp at h
  | some sigBytes =>
    simp only at h ⊢
    have hfs : (osOpen tempName s).2.fs = s.fs := by
      unfold osOpen
      simp only
      split_ifs
      · exact nextFault_fs s
      · cases (nextFault s).2.fs tempName <;> exact nextFault_fs s
    cases hopen : osOpen tempName s with
    | mk res s1 =>
      rw [hopen] at h hfs
      cases res with
      | error err => simp at h
      | ok fd =>
        simp only at h hfs ⊢
        split_ifs at h ⊢
        exact ⟨h0, hfs⟩

theorem osRename_ok (oldpath newpath : String) (s : Sys)
    (h : (osRename oldpath newpath s).1 = none) :
    (∃ fl, s.fs oldpath = some fl) ∧
    (osRename oldpath newpath s).2.fs newpath = s.fs oldpath ∧
    (oldpath ≠ newpath → (osRename oldpath newpath s).2.fs oldpath = none) ∧
    (∀ p, p ≠ oldpath → p ≠ newpath → (osRename oldpath newpath s).2.fs p = s.fs p) := by
  have hfs := nextFault_fs s
  unfold osRename at h ⊢
  simp only at h ⊢
  split_ifs at h ⊢ with hc
  have hsome : ¬ ((nextFault s).2.fs oldpath).isNone = true :=
    fun e => hc (Or.inr (Or.inr (Or.inr e)))
  rw [hfs] at hsome
  refine ⟨?_, ?_, ?_, ?_⟩
  · cases hh : s.fs oldpath with
    | none => rw [hh] at hsome; simp at hsome
    | some fl => exact ⟨fl, rfl⟩
  · simp [hfs]
  · intro hne
    simp [hne]
  · intro p h1 h2
    simp [h1, h2, hfs]

theorem append_old_ne (binary : String) : binary ++ ".old" ≠ binary := by
  intro h
  have := congrArg String.length h
  simp [String.length_append] at this
  exact absurd this (by decide)

/-- C12: in every run of `upgradeToURL` in which extraction, verification and
both renames succeed, from a state in which `binary` and `binary.old` are out
of reach of `ioutil.TempFile`: the call returns no error; afterwards the file
at `binary` holds exactly the bytes of a payload entry of the fetched archive,
the file at `binary.old` is the file that was at `binary` before the call,
and the temp file no longer exists under its temp name. -/
theorem upgradeToURL_success (env : Env) (binary url : String) (key : Bytes) (s : Sys)
    (a : Archive) (hbin : Shielded binary s) (hold : Shielded (binary ++ ".old") s)
    (hfetch : env.httpDo url = .ok a) (hok : StagesSucceed env binary url key s) :
    (upgradeToURL env binary url key s).1 = none ∧
    (∃ e ∈ a.entries, (Base e.Name = "syncthing" ∨ Base e.Name = "syncthing.exe") ∧
      (upgradeToURL env binary url key s).2.fs binary =
        some { data := e.body.data, mode := 0o755 }) ∧
    (∃ prev, s.fs binary = some prev ∧
      (upgradeToURL env binary url key s).2.fs (binary ++ ".old") = some prev) ∧
    (stageExtract env binary url s).1.1 ≠ "" ∧
    (upgradeToURL env binary url key s).2.fs (stageExtract env binary url s).1.1 = none := by
  obtain ⟨fb, nb⟩ := readRelease_frame env binary (env.Dir binary) url s hbin
  obtain ⟨fo, no⟩ := readRelease_frame env (binary ++ ".old") (env.Dir binary) url s hold
  have hp := readRelease_payload env (env.Dir binary) url s a hfetch
  unfold StagesSucceed stageRenameNew stageRenameOld stageVerify stageExtract at hok
  unfold stageExtract upgradeToURL
  cases hr : readRelease env (env.Dir binary) url s with
  | mk res s1 =>
    rw [hr] at fb nb fo no hp hok
    obtain ⟨fname, sig, err⟩ := res
    simp only at fb nb fo no hp hok ⊢
    obtain ⟨herr, hver, hren1, hren2⟩ := hok
    subst herr
    simp only
    obtain ⟨hne, hfs2⟩ := verifyUpgrade_ok env fname sig key s1 hver
    cases hv : verifyUpgrade env fname sig key s1 with
    | mk verr s2 =>
      rw [hv] at hver hfs2 hren1 hren2
      simp only at hver hfs2 hren1 hren2
      subst hver
      simp only
      have hfb : fname ≠ binary := nb.resolve_left hne
      have hfo : fname ≠ binary ++ ".old" := no.resolve_left hne
      have hob : binary ++ ".old" ≠ binary := append_old_ne binary
      obtain ⟨⟨prev, hprev⟩, r1new, r1old, r1rest⟩ :=
        osRename_ok binary (binary ++ ".old") (osRemove (binary ++ ".old") s2).2 hren1
      obtain ⟨_, r2new, r2old, r2rest⟩ := osRename_ok fname binary _ hren2
      have hrm : ∀ p, p ≠ binary ++ ".old" →
          (osRemove (binary ++ ".old") s2).2.fs p = s2.fs p :=
        fun p hpn => (osRemove_frame p (binary ++ ".old") s2 (Or.inr (fun e => hpn e.symm))).1
      cases h1 : osRename binary (binary ++ ".old") (osRemove (binary ++ ".old") s2).2 with
      | mk e1 s3 =>
        rw [h1] at hren1 hren2 r1new r1old r1rest r2new r2old r2rest
        simp only at hren1 hren2 r1new r1old r1rest r2new r2old r2rest
        subst hren1
        simp only
        cases h2 : osRename fname binary s3 with
        | mk e2 s4 =>
          rw [h2] at hren2 r2new r2old r2rest
          simp only at hren2 r2new r2old r2rest
          subst hren2
          simp only
          have hbinary : s4.fs binary = s1.fs fname := by
            rw [r2new, r1rest fname hfb hfo, hrm fname hfo, hfs2]
          have holdfile : s4.fs (binary ++ ".old") = s.fs binary := by
            rw [r2rest (binary ++ ".old") (fun e => hfo e.symm) hob, r1new,
              hrm binary (fun e => hob e.symm), hfs2, fb.1]
          have hprev' : s.fs binary = some prev := by
            rw [← hprev, hrm binary (fun e => hob e.symm), hfs2, fb.1]
          refine ⟨trivial, ?_, ⟨prev, hprev', by rw [holdfile, hprev']⟩, hne, r2old hfb⟩
          rcases hp with hp | ⟨e, he, hname, hfile⟩
          · exact absurd hp hne
          · exact ⟨e, he, (payloadName_iff _).mp hname, by rw [hbinary, hfile]⟩

theorem upgradeToURL_success_witness :
    (Shielded "/bin/syncthing" sampleSys ∧ Shielded ("/bin/syncthing" ++ ".old") sampleSys ∧
      (sampleEnv true).httpDo "https://h/a" = .ok sampleArchive ∧
      StagesSucceed (sampleEnv true) "/bin/syncthing" "https://h/a" [] sampleSys) ∧
    ((upgradeToURL (sampleEnv true) "/bin/syncthing" "https://h/a" [] sampleSys).1 = none ∧
    (∃ e ∈ sampleArchive.entries,
      (Base e.Name = "syncthing" ∨ Base e.Name = "syncthing.exe") ∧
      (upgradeToURL (sampleEnv true) "/bin/syncthing" "https://h/a" [] sampleSys).2.fs
        "/bin/syncthing" = some { data := e.body.data, mode := 0o755 }) ∧
    (∃ prev, sampleSys.fs "/bin/syncthing" = some prev ∧
      (upgradeToURL (sampleEnv true) "/bin/syncthing" "https://h/a" [] sampleSys).2.fs
        ("/bin/syncthing" ++ ".old") = some prev) ∧
    (stageExtract (sampleEnv true) "/bin/syncthing" "https://h/a" sampleSys).1.1 ≠ "" ∧
    (upgradeToURL (sampleEnv true) "/bin/syncthing" "https://h/a" [] sampleSys).2.fs
      (stageExtract (sampleEnv true) "/bin/syncthing" "https://h/a" sampleSys).1.1 = none) :=
  ⟨⟨Or.inl (by decide), Or.inr (by decide), rfl, ⟨by decide, by decide, by decide, by decide⟩⟩,
   upgradeToURL_success (sampleEnv true) "/bin/syncthing" "https://h/a" [] sampleSys
     sampleArchive (Or.inl (by decide)) (Or.inr (by decide)) rfl
     ⟨by decide, by decide, by decide, by decide⟩⟩


end Upgrade
